import Mathlib

/-!
# Verification of the pensy-ingest-api pipeline orchestration core

Shallow embedding of `src/pipeline/orchestrator.ts` (class `PipelineOrchestrator`)
together with the type contracts of `src/pipeline/types.ts`.

Modelling conventions:
* JavaScript `Map<string, T>` is modelled as an insertion-ordered association
  list (`Map.set` replaces the value in place for an existing key and appends
  otherwise; iteration follows insertion order, as in JS).
* JavaScript `Set<string>` is modelled as an insertion-ordered duplicate-free
  list (`Set.add` is a no-op when the element is present).
* Recursive graph walks (`visit` in `topologicalSort`, `checkCycle` in
  `validateNoCycles`, `addStepAndDependencies` in `createExecutionPlan`) are
  unbounded recursions in the source; they are embedded with an explicit fuel
  parameter.  Theorems about successful runs supply a sufficient fuel bound.
* Wall-clock data (durations, timestamps, the timeout race) is not observable
  in a shallow embedding; a step's action is modelled as a function
  `Email → Except String Unit` whose `error` case covers both a thrown
  exception and the timeout race being lost.  The `duration`/`metadata`
  fields of `StepResult` and the `startTime` field of the run context are
  omitted for the same reason.
* Database effects are modelled by explicit state passing: `pipeline_logs`
  inserts and `email_processing_status` upserts append to a `DB` record.
  The source swallows failures of the status upsert (`updateProcessingStatus`
  wraps its query in try/catch), so the modelled upsert always succeeds;
  `pipeline_logs` inserts are *not* wrapped by the source, so the environment
  may make them fail (`Env.logInsert`).
* `Promise.allSettled` over the promises of one parallel group never rejects:
  the group's steps are modelled as running sequentially (their relative
  interleaving is unobservable here) and any error escaping `executeStep`
  is discarded, exactly as `allSettled` discards rejections.
-/

namespace PensyPipeline

/-- `Email` row loaded by `loadEmail` (types.ts). The opaque `body` payload is
modelled as a string. -/
structure Email where
  id : String
  subject : String
  body : String
  conversation_id : Option String
deriving DecidableEq, Repr

/-- `StepResult` (types.ts); `duration`/`metadata` carry wall-clock data and
are omitted (see module docstring). -/
structure StepResult where
  success : Bool
  error : Option String
deriving DecidableEq, Repr

/-- `PipelineStep` (types.ts).  `execute` is the opaque step action; its
`error` outcome covers a thrown exception or a lost timeout race.  The
`timeout` field only feeds the (unobservable) race and is omitted. -/
structure PipelineStep where
  name : String
  dependencies : List String
  execute : Email → Except String Unit
  retryable : Bool
  priority : Int

/-- The `steps : Map<string, PipelineStep>` field of the orchestrator,
as an insertion-ordered association list. -/
abbrev Registry := List (String × PipelineStep)

/-- One row of `pipeline_logs` (insert in `executeStep`); the structured
`details` JSON is reduced to its observable `error` field. -/
structure LogEntry where
  emailId : String
  step : String
  status : String
  error : Option String
deriving DecidableEq, Repr

/-- One upsert of `email_processing_status` (`updateProcessingStatus`). -/
structure StatusWrite where
  emailId : String
  status : String
  currentStep : Option String
deriving DecidableEq, Repr

/-- The persistent store touched by the orchestrator. -/
structure DB where
  logs : List LogEntry
  statusWrites : List StatusWrite
deriving DecidableEq, Repr

/-- External collaborators: the `emails` table read (`loadEmail`) and the
`pipeline_logs` insert, which the source does not guard with try/catch and
which may therefore throw. -/
structure Env where
  loadEmail : String → Option Email
  logInsert : String → String → String → Option String → Except String Unit

/-- `PipelineContext` (types.ts); `startTime` omitted (wall clock). -/
structure PipelineContext where
  emailId : String
  email : Email
  completedSteps : List String
  failedSteps : List String
  stepResults : List (String × StepResult)
deriving DecidableEq, Repr

/-- `ExecutionPlan` (types.ts). -/
structure ExecutionPlan where
  steps : List String
  parallelGroups : List (List String)
  totalSteps : Nat
deriving DecidableEq, Repr

/-! ## Association-list and JS-set primitives -/

/-- `Map.get` / lookup in an insertion-ordered association list. -/
def assocGet {κ α : Type} [DecidableEq κ] : List (κ × α) → κ → Option α
  | [], _ => none
  | (k0, v0) :: rest, k => if k0 = k then some v0 else assocGet rest k

/-- `Map.set`: replace in place when the key exists, append otherwise
(JS `Map` keeps the original insertion position on overwrite). -/
def assocSet {κ α : Type} [DecidableEq κ] : List (κ × α) → κ → α → List (κ × α)
  | [], k, v => [(k, v)]
  | (k0, v0) :: rest, k, v =>
      if k0 = k then (k0, v) :: rest else (k0, v0) :: assocSet rest k v

/-- JS `Set.add`: append iff absent. -/
def setAdd (l : List String) (x : String) : List String :=
  if x ∈ l then l else l ++ [x]

/-- `new Set(xs)` / `Array.from` round-trip: first-occurrence deduplication. -/
def dedupFirst : List String → List String :=
  go []
where
  /-- accumulator-passing loop of `dedupFirst` -/
  go : List String → List String → List String
    | acc, [] => acc
    | acc, x :: xs => go (setAdd acc x) xs

/-- Fold a fallible body over a list, stopping at the first error
(the shape of every sequential `for` loop with `throw` in the source). -/
def exceptFold {α : Type} (f : α → String → Except String α) :
    List String → α → Except String α
  | [], a => .ok a
  | x :: xs, a =>
      match f a x with
      | .error e => .error e
      | .ok a' => exceptFold f xs a'

/-! ## Registry: `registerStep`, `getSteps`, `validateNoCycles` -/

/-- `this.steps.get(name)`. -/
def lookupStep (r : Registry) (n : String) : Option PipelineStep :=
  assocGet r n

/-- Dependencies of a registered step, `[]` when the name is unregistered
(the source guards every such access with `if (step)`). -/
def depsOf (r : Registry) (n : String) : List String :=
  match lookupStep r n with
  | some s => s.dependencies
  | none => []

/-- `getSteps()`: `Array.from(this.steps.values())`. -/
def getSteps (r : Registry) : List PipelineStep :=
  r.map Prod.snd

/-- The DFS `checkCycle` closure of `validateNoCycles`.  `visiting` is the
mid-traversal set (added before the dependency loop, removed after — hence a
down-passed parameter), `visited` is the accumulated fully-explored set,
`path` only feeds the error message.  Note the source never places the step
being registered into `visiting`. -/
def checkCycle (r : Registry) : Nat → List String → List String → String →
    List String → Except String (List String)
  | fuel, visiting, path, current, visited =>
    if current ∈ visiting then
      .error ("Circular dependency detected: " ++ String.intercalate " -> " path
        ++ " -> " ++ current)
    else if current ∈ visited then .ok visited
    else
      match fuel with
      | 0 => .error "model fuel exhausted"
      | Nat.succ f =>
          match exceptFold
              (fun vis dep => checkCycle r f (current :: visiting) (path ++ [current]) dep vis)
              (depsOf r current) visited with
          | .error e => .error e
          | .ok visited' => .ok (visited' ++ [current])

/-- `validateNoCycles(stepName, dependencies)`: run `checkCycle(dep, [stepName])`
for each declared dependency. -/
def validateNoCycles (r : Registry) (fuel : Nat) (stepName : String)
    (dependencies : List String) : Except String Unit :=
  match exceptFold (fun vis dep => checkCycle r fuel [] [stepName] dep vis)
      dependencies [] with
  | .error e => .error e
  | .ok _ => .ok ()

/-- `registerStep(step)`.  The `typeof` checks on `dependencies`/`execute`
hold by typing in the embedding; the empty-name check remains observable. -/
def registerStep (fuel : Nat) (r : Registry) (step : PipelineStep) :
    Except String Registry :=
  if step.name = "" then
    .error "Step name is required and must be a string"
  else
    match validateNoCycles r fuel step.name step.dependencies with
    | .error e => .error e
    | .ok _ => .ok (assocSet r step.name step)

/-! ## Planner: `createExecutionPlan`, `topologicalSort`, `createParallelGroups` -/

/-- The validation filter at the top of `createExecutionPlan`: every requested
name must be registered; the loop throws at the first unknown name. -/
def validateSteps (r : Registry) : List String → Except String (List String)
  | [] => .ok []
  | n :: ns =>
      if (lookupStep r n).isSome then
        match validateSteps r ns with
        | .error e => .error e
        | .ok rest => .ok (n :: rest)
      else .error ("Unknown pipeline step: " ++ n)

/-- `addStepAndDependencies`: depth-first expansion, dependencies before the
dependent; errors on an unregistered name. -/
def addStepAndDeps (r : Registry) : Nat → String → List String →
    Except String (List String)
  | fuel, n, acc =>
    if n ∈ acc then .ok acc
    else
      match fuel with
      | 0 => .error "model fuel exhausted"
      | Nat.succ f =>
          match lookupStep r n with
          | none => .error ("Unknown pipeline step: " ++ n)
          | some step =>
              match exceptFold (fun a d => addStepAndDeps r f d a)
                  step.dependencies acc with
              | .error e => .error e
              | .ok acc' => .ok (setAdd acc' n)

/-- The `visit` closure of `topologicalSort`.  The source's `visited` set and
`result` array receive exactly the same elements at the same program point,
so both are modelled by the single list `st`.  `visiting` is stack-like
(added before the dependency loop, removed after) and is a down-passed
parameter. -/
def visit (r : Registry) (stepNames : List String) : Nat → List String →
    String → List String → Except String (List String)
  | fuel, visiting, n, st =>
    if n ∈ visiting then
      .error ("Circular dependency detected involving step: " ++ n)
    else if n ∈ st then .ok st
    else
      match fuel with
      | 0 => .error "model fuel exhausted"
      | Nat.succ f =>
          match exceptFold
              (fun st2 dep =>
                if dep ∈ stepNames then visit r stepNames f (n :: visiting) dep st2
                else .ok st2)
              (depsOf r n) st with
          | .error e => .error e
          | .ok st2 => .ok (st2 ++ [n])

/-- `topologicalSort(stepNames)`. -/
def topologicalSort (r : Registry) (fuel : Nat) (stepNames : List String) :
    Except String (List String) :=
  exceptFold (fun st n => visit r stepNames fuel [] n st) stepNames []

/-- One iteration of the `maxDepLevel` loop of `createParallelGroups`:
`if (depLevel !== undefined && depLevel > maxDepLevel) maxDepLevel = depLevel`. -/
def mdlStep (levels : List (String × Int)) (acc : Int) (d : String) : Int :=
  match assocGet levels d with
  | some l => if l > acc then l else acc
  | none => acc

/-- The `maxDepLevel` loop of `createParallelGroups`: greatest already-assigned
level among the dependencies, starting from `-1`. -/
def maxDepLevel (levels : List (String × Int)) (deps : List String) : Int :=
  deps.foldl (mdlStep levels) (-1)

/-- First loop of `createParallelGroups`: assign `stepLevels` in `sortedSteps`
order.  The source reads `this.steps.get(stepName)!`; a missing step is the
modelled crash. -/
def buildLevels (r : Registry) : List String → List (String × Int) →
    Except String (List (String × Int))
  | [], acc => .ok acc
  | n :: ns, acc =>
      match lookupStep r n with
      | none => .error ("Step not found: " ++ n)
      | some step =>
          buildLevels r ns (assocSet acc n (maxDepLevel acc step.dependencies + 1))

/-- One iteration of the second loop of `createParallelGroups`: append the
step to its level's bucket, creating the bucket on first sight. -/
def gblStep (acc : List (Int × List String)) (p : String × Int) :
    List (Int × List String) :=
  match assocGet acc p.2 with
  | some g => assocSet acc p.2 (g ++ [p.1])
  | none => acc ++ [(p.2, [p.1])]

/-- Second loop: bucket `stepLevels` entries by level, in insertion order. -/
def groupByLevel (lv : List (String × Int)) : List (Int × List String) :=
  lv.foldl gblStep []

/-- Third loop: `for (level = 0; level < levelGroups.size; level++)`, pushing
the group when present. -/
def collectGroups (lg : List (Int × List String)) : List (List String) :=
  (List.range lg.length).filterMap (fun i => assocGet lg (Int.ofNat i))

/-- `createParallelGroups(sortedSteps)`. -/
def createParallelGroups (r : Registry) (sortedSteps : List String) :
    Except String (List (List String)) :=
  match buildLevels r sortedSteps [] with
  | .error e => .error e
  | .ok levels => .ok (collectGroups (groupByLevel levels))

/-- `createExecutionPlan(requestedSteps, _completedSteps, skipDependencies)`. -/
def createExecutionPlan (r : Registry) (fuel : Nat) (requestedSteps : List String)
    (skipDependencies : Bool) : Except String ExecutionPlan :=
  match validateSteps r requestedSteps with
  | .error e => .error e
  | .ok stepsToRun =>
    if stepsToRun = [] then .ok ⟨[], [], 0⟩
    else
      match
        (if skipDependencies then .ok (dedupFirst stepsToRun)
         else exceptFold (fun acc n => addStepAndDeps r fuel n acc) stepsToRun []) with
      | .error e => .error e
      | .ok allRequiredSteps =>
          match topologicalSort r fuel allRequiredSteps with
          | .error e => .error e
          | .ok sortedSteps =>
              match createParallelGroups r sortedSteps with
              | .error e => .error e
              | .ok parallelGroups =>
                  .ok ⟨sortedSteps, parallelGroups, sortedSteps.length⟩

/-! ## Executor: `executeStep`, `executePlan`, `executeSteps` -/

/-- `updateProcessingStatus`: the upsert; its own failure is swallowed by the
source's try/catch, so the modelled write always lands. -/
def updateProcessingStatus (db : DB) (emailId status : String)
    (currentStep : Option String) : DB :=
  { db with statusWrites := db.statusWrites ++ [⟨emailId, status, currentStep⟩] }

/-- The catch-block of `executeStep`: record the failure in the context,
insert an "error" log row (unguarded — its own failure propagates out of the
catch regardless of retryability), then re-throw iff the step is retryable. -/
def executeStepFailure (env : Env) (step : PipelineStep)
    (ctx : PipelineContext) (db : DB) (stepName errorMessage : String) :
    (PipelineContext × DB) × Option String :=
  let ctx' : PipelineContext :=
    { ctx with
      stepResults := assocSet ctx.stepResults stepName ⟨false, some errorMessage⟩
      failedSteps := setAdd ctx.failedSteps stepName }
  match env.logInsert ctx.emailId stepName "error" (some errorMessage) with
  | .error e2 => ((ctx', db), some e2)
  | .ok _ =>
      let db' := { db with
        logs := db.logs ++ [⟨ctx.emailId, stepName, "error", some errorMessage⟩] }
      if step.retryable then ((ctx', db'), some errorMessage)
      else ((ctx', db'), none)

/-- `executeStep(context, stepName)`.  Returns the mutated state together with
the escaped exception, if any (mutations before a throw persist). -/
def executeStep (env : Env) (r : Registry) (ctx : PipelineContext) (db : DB)
    (stepName : String) : (PipelineContext × DB) × Option String :=
  match lookupStep r stepName with
  | none => ((ctx, db), some ("Step not found: " ++ stepName))
  | some step =>
      match step.execute ctx.email with
      | .ok _ =>
          let ctx' : PipelineContext :=
            { ctx with
              stepResults := assocSet ctx.stepResults stepName ⟨true, none⟩
              completedSteps := setAdd ctx.completedSteps stepName }
          match env.logInsert ctx.emailId stepName "ok" none with
          | .ok _ =>
              ((ctx', { db with
                logs := db.logs ++ [⟨ctx.emailId, stepName, "ok", none⟩] }), none)
          | .error e =>
              -- the success-log insert threw: control falls into the catch block
              executeStepFailure env step ctx' db stepName e
      | .error e => executeStepFailure env step ctx db stepName e

/-- One parallel group under `Promise.allSettled`: every step runs, every
escaped exception is discarded (`allSettled` never rejects). -/
def runGroup (env : Env) (r : Registry) (group : List String)
    (st : PipelineContext × DB) : PipelineContext × DB :=
  group.foldl (fun s n => (executeStep env r s.1 s.2 n).1) st

/-- `executePlan(context, plan)`: groups in sequence; after a group, if a
nonempty next group exists, a best-effort "processing" status update names
its first step.  No exception can escape (see `runGroup`). -/
def executePlanAux (env : Env) (r : Registry) (emailId : String) :
    List (List String) → PipelineContext × DB → PipelineContext × DB
  | [], st => st
  | group :: rest, st =>
      let st1 := runGroup env r group st
      let st2 :=
        match rest with
        | [] => st1
        | next :: _ =>
            if next.length > 0 then
              (st1.1, updateProcessingStatus st1.2 emailId "processing" next.head?)
            else st1
      executePlanAux env r emailId rest st2

/-- `executeSteps(emailId, requestedSteps?, skipDependencies)`.  Returns the
final store state and either the run context or the escaped exception.
After a successful plan the source's try/catch around `executePlan` is dead:
`Promise.allSettled` absorbs every step rejection, so the run always reaches
the completed/partial_failure branch. -/
def executeSteps (env : Env) (r : Registry) (fuel : Nat) (emailId : String)
    (requestedSteps : Option (List String)) (skipDependencies : Bool)
    (db : DB) : DB × Except String PipelineContext :=
  match env.loadEmail emailId with
  | none => (db, .error ("Email not found: " ++ emailId))
  | some email =>
      let stepsToRun := requestedSteps.getD (r.map Prod.fst)
      match createExecutionPlan r fuel stepsToRun skipDependencies with
      | .error e => (db, .error e)
      | .ok plan =>
          let db1 := updateProcessingStatus db emailId "processing" plan.steps.head?
          let ctx0 : PipelineContext := ⟨emailId, email, [], [], []⟩
          let st := executePlanAux env r emailId plan.parallelGroups (ctx0, db1)
          if st.1.failedSteps = [] then
            (updateProcessingStatus st.2 emailId "completed" none, .ok st.1)
          else
            (updateProcessingStatus st.2 emailId "partial_failure" none, .ok st.1)

/-! ## Generic helper lemmas -/

instance {ε α : Type} [DecidableEq ε] [DecidableEq α] : DecidableEq (Except ε α) :=
  fun a b =>
  match a, b with
  | .ok x, .ok y => if h : x = y then isTrue (by rw [h]) else isFalse (by simp [h])
  | .error x, .error y => if h : x = y then isTrue (by rw [h]) else isFalse (by simp [h])
  | .ok _, .error _ => isFalse (by simp)
  | .error _, .ok _ => isFalse (by simp)

theorem mem_setAdd_self (l : List String) (x : String) : x ∈ setAdd l x := by
  unfold setAdd
  by_cases h : x ∈ l
  · simp [h]
  · simp [h]

theorem mem_setAdd_of_mem (l : List String) (x y : String) (h : y ∈ l) :
    y ∈ setAdd l x := by
  unfold setAdd
  by_cases hx : x ∈ l
  · simpa [hx]
  · simp [hx, h]

theorem mem_setAdd_iff (l : List String) (x y : String) :
    y ∈ setAdd l x ↔ y ∈ l ∨ y = x := by
  unfold setAdd
  by_cases hx : x ∈ l
  · simp only [if_pos hx]
    constructor
    · exact fun h => Or.inl h
    · rintro (h | rfl)
      · exact h
      · exact hx
  · simp [if_neg hx]

theorem setAdd_nodup (l : List String) (x : String) (h : l.Nodup) :
    (setAdd l x).Nodup := by
  unfold setAdd
  by_cases hx : x ∈ l
  · simpa [hx]
  · simp [hx, List.nodup_append, h, List.disjoint_singleton]

theorem assocGet_assocSet_self {κ α : Type} [DecidableEq κ]
    (l : List (κ × α)) (k : κ) (v : α) : assocGet (assocSet l k v) k = some v := by
  induction l with
  | nil => simp [assocSet, assocGet]
  | cons p rest ih =>
      by_cases h : p.1 = k
      · simp [assocSet, assocGet, h]
      · simp [assocSet, assocGet, h, ih]

theorem assocGet_assocSet_ne {κ α : Type} [DecidableEq κ]
    (l : List (κ × α)) (k k' : κ) (v : α) (h : k ≠ k') :
    assocGet (assocSet l k v) k' = assocGet l k' := by
  induction l with
  | nil => simp [assocSet, assocGet, h]
  | cons p rest ih =>
      by_cases hp : p.1 = k
      · simp [assocSet, assocGet, hp, h]
      · simp [assocSet, assocGet, hp, ih]

/-! ## Concrete fixtures used by closed theorems and witnesses -/

/-- a step action that always succeeds -/
def fxOkExec : Email → Except String Unit := fun _ => .ok ()

/-- a step action that always throws "boom" -/
def fxBoomExec : Email → Except String Unit := fun _ => .error "boom"

def fxEmail : Email := ⟨"e1", "subj", "body", none⟩

/-- entity store with exactly one email `e1`; log inserts always succeed -/
def fxEnv : Env :=
  ⟨fun i => if i = "e1" then some fxEmail else none, fun _ _ _ _ => .ok ()⟩

/-- log inserts with status "ok" throw; "error" inserts succeed -/
def fxEnvBadLog : Env :=
  ⟨fun i => if i = "e1" then some fxEmail else none,
   fun _ _ s _ => if s = "ok" then .error "log insert failed" else .ok ()⟩

def fxA : PipelineStep := ⟨"A", [], fxOkExec, false, 0⟩
def fxBretry : PipelineStep := ⟨"B", ["A"], fxBoomExec, true, 0⟩
def fxBabsorb : PipelineStep := ⟨"B", ["A"], fxBoomExec, false, 0⟩
def fxC : PipelineStep := ⟨"C", ["B"], fxOkExec, false, 0⟩

/-- A (no deps, ok), B (dep A, throws, retryable), C (dep B, ok) -/
def fxRegRetry : Registry := [("A", fxA), ("B", fxBretry), ("C", fxC)]

/-- A (no deps, ok), B (dep A, throws, non-retryable), C (dep B, ok) -/
def fxRegAbsorb : Registry := [("A", fxA), ("B", fxBabsorb), ("C", fxC)]

def fxZ : PipelineStep := ⟨"Z", [], fxOkExec, false, 0⟩
def fxY : PipelineStep := ⟨"Y", ["Z"], fxOkExec, false, 0⟩
def fxX : PipelineStep := ⟨"X", ["Y"], fxOkExec, false, 0⟩

/-- X depends on Y depends on Z -/
def fxRegXYZ : Registry := [("X", fxX), ("Y", fxY), ("Z", fxZ)]

/-- step B depending on the not-yet-registered name A -/
def fxDepB : PipelineStep := ⟨"B", ["A"], fxOkExec, false, 0⟩

/-- step A depending on the already-registered B, closing the cycle -/
def fxDepA : PipelineStep := ⟨"A", ["B"], fxOkExec, false, 0⟩

/-- a retryable step whose action succeeds (C9 witness) -/
def fxAretry : PipelineStep := ⟨"A", [], fxOkExec, true, 0⟩

def fxRegBadLog : Registry := [("A", fxAretry)]

def fxCtx0 : PipelineContext := ⟨"e1", fxEmail, [], [], []⟩

/-! ## Supporting lemmas for the planner entry checks -/

theorem validateSteps_error_of_unknown (r : Registry) (req : List String)
    (n : String) (h2 : n ∈ req) (h3 : lookupStep r n = none) :
    ∃ m, m ∈ req ∧ lookupStep r m = none ∧
      validateSteps r req = .error ("Unknown pipeline step: " ++ m) := by
  induction req with
  | nil => cases h2
  | cons x xs ih =>
      by_cases hx : (lookupStep r x).isSome
      · have hnx : n ≠ x := by
          intro heq
          rw [← heq, h3] at hx
          simp at hx
        have hmem : n ∈ xs := by
          rcases List.mem_cons.mp h2 with h | h
          · exact absurd h hnx
          · exact h
        obtain ⟨m, hm1, hm2, hm3⟩ := ih hmem
        exact ⟨m, List.mem_cons_of_mem x hm1, hm2, by simp [validateSteps, hx, hm3]⟩
      · refine ⟨x, List.mem_cons_self x xs, Option.not_isSome_iff_eq_none.mp hx, ?_⟩
        simp [validateSteps, hx]

/-! ## Registration: ranked acyclicity and success of `validateNoCycles` -/

/-- A ranking certificate that the dependency graph over the registered steps
is acyclic: every registered edge strictly decreases the rank. -/
def RankedReg (r : Registry) (rank : String → Nat) : Prop :=
  ∀ p ∈ r, ∀ d ∈ (Prod.snd p).dependencies, rank d < rank (Prod.fst p)

/-- The per-entry `name = key` invariant every registry built by
`registerStep` enjoys. -/
def WfReg (r : Registry) : Prop :=
  ∀ p ∈ r, (Prod.snd p : PipelineStep).name = Prod.fst p

theorem assocGet_mem {κ α : Type} [DecidableEq κ] (l : List (κ × α)) (k : κ)
    (v : α) (h : assocGet l k = some v) : (k, v) ∈ l := by
  induction l with
  | nil => simp [assocGet] at h
  | cons p rest ih =>
      by_cases hp : p.1 = k
      · simp only [assocGet, hp, if_pos, Option.some.injEq] at h
        have : (k, v) = p := by
          rw [← hp, ← h]
        rw [this]
        exact List.mem_cons_self p rest
      · simp only [assocGet, hp, if_neg, if_false] at h
        exact List.mem_cons_of_mem p (ih h)

theorem exceptFold_ok {α : Type} (f : α → String → Except String α)
    (xs : List String) (hf : ∀ a x, x ∈ xs → ∃ a', f a x = .ok a') :
    ∀ a, ∃ a', exceptFold f xs a = .ok a' := by
  induction xs with
  | nil => exact fun a => ⟨a, rfl⟩
  | cons x rest ih =>
      intro a
      obtain ⟨a1, ha1⟩ := hf a x (List.mem_cons_self x rest)
      obtain ⟨a2, ha2⟩ := ih (fun b y hy => hf b y (List.mem_cons_of_mem x hy)) a1
      exact ⟨a2, by simp [exceptFold, ha1, ha2]⟩

theorem depsOf_rank (r : Registry) (rank : String → Nat) (hr : RankedReg r rank)
    (c d : String) (hd : d ∈ depsOf r c) : rank d < rank c := by
  unfold depsOf at hd
  cases hl : lookupStep r c with
  | none => rw [hl] at hd; cases hd
  | some st =>
      rw [hl] at hd
      exact hr (c, st) (assocGet_mem r c st hl) d hd

theorem checkCycle_ok (r : Registry) (rank : String → Nat)
    (hr : RankedReg r rank) :
    ∀ fuel current visiting path visited,
      rank current < fuel →
      (∀ v ∈ visiting, rank current < rank v) →
      ∃ visited', checkCycle r fuel visiting path current visited = .ok visited' := by
  intro fuel
  induction fuel with
  | zero => intro current _ _ _ h; cases h
  | succ f ih =>
      intro current visiting path visited hfuel hvis
      have hnv : current ∉ visiting := by
        intro hc
        exact absurd (hvis current hc) (lt_irrefl _)
      by_cases hvd : current ∈ visited
      · exact ⟨visited, by simp [checkCycle, hnv, hvd]⟩
      · obtain ⟨vis', hfold⟩ :=
          exceptFold_ok
            (fun vis dep =>
              checkCycle r f (current :: visiting) (path ++ [current]) dep vis)
            (depsOf r current)
            (fun a x hx => by
              have hrank := depsOf_rank r rank hr current x hx
              refine ih x (current :: visiting) (path ++ [current]) a ?_ ?_
              · exact lt_of_lt_of_le hrank (Nat.lt_succ_iff.mp hfuel)
              · intro v hv
                rcases List.mem_cons.mp hv with rfl | hv'
                · exact hrank
                · exact lt_trans hrank (hvis v hv'))
            visited
        exact ⟨vis' ++ [current], by simp [checkCycle, hnv, hvd, hfold]⟩

theorem validateNoCycles_ok (r : Registry) (rank : String → Nat) (fuel : Nat)
    (stepName : String) (deps : List String) (hr : RankedReg r rank)
    (hf : ∀ d ∈ deps, rank d < fuel) :
    validateNoCycles r fuel stepName deps = .ok () := by
  obtain ⟨vis', hfold⟩ :=
    exceptFold_ok (fun vis dep => checkCycle r fuel [] [stepName] dep vis) deps
      (fun a x hx => checkCycle_ok r rank hr fuel x [] [stepName] a (hf x hx)
        (by intro v hv; cases hv))
      []
  simp [validateNoCycles, hfold]

theorem registerStep_ok (fuel : Nat) (r : Registry) (s : PipelineStep)
    (rank : String → Nat) (hname : s.name ≠ "") (hr : RankedReg r rank)
    (hf : ∀ d ∈ s.dependencies, rank d < fuel) :
    registerStep fuel r s = .ok (assocSet r s.name s) := by
  simp [registerStep, hname,
    validateNoCycles_ok r rank fuel s.name s.dependencies hr hf]

theorem registerStep_ok_inv (fuel : Nat) (r r' : Registry) (s : PipelineStep)
    (h : registerStep fuel r s = .ok r') : r' = assocSet r s.name s := by
  unfold registerStep at h
  by_cases hn : s.name = ""
  · simp [hn] at h
  · simp only [hn, if_neg, if_false] at h
    cases hv : validateNoCycles r fuel s.name s.dependencies with
    | error e => rw [hv] at h; cases h
    | ok u => rw [hv] at h; cases h; rfl

theorem assocSet_keys {κ α : Type} [DecidableEq κ] (l : List (κ × α)) (k : κ)
    (v : α) :
    (assocSet l k v).map Prod.fst =
      if k ∈ l.map Prod.fst then l.map Prod.fst else l.map Prod.fst ++ [k] := by
  induction l with
  | nil => simp [assocSet]
  | cons p rest ih =>
      by_cases hp : p.1 = k
      · simp [assocSet, hp]
      · have hne : k ≠ p.1 := fun h => hp h.symm
        by_cases hk : k ∈ rest.map Prod.fst <;>
          simp [assocSet, hp, ih, hne, hk]

theorem assocSet_keys_nodup {κ α : Type} [DecidableEq κ] (l : List (κ × α))
    (k : κ) (v : α) (h : (l.map Prod.fst).Nodup) :
    ((assocSet l k v).map Prod.fst).Nodup := by
  rw [assocSet_keys]
  by_cases hk : k ∈ l.map Prod.fst
  · simpa [hk]
  · simp [hk, List.nodup_append, h, List.disjoint_singleton, hk]

theorem wfReg_assocSet (r : Registry) (s : PipelineStep) (hwf : WfReg r) :
    WfReg (assocSet r s.name s) := by
  induction r with
  | nil =>
      intro p hp
      simp only [assocSet, List.mem_singleton] at hp
      rw [hp]
  | cons q rest ih =>
      intro p hp
      by_cases hq : q.1 = s.name
      · rw [assocSet, if_pos hq] at hp
        rcases List.mem_cons.mp hp with rfl | hp'
        · exact hq.symm
        · exact hwf p (List.mem_cons_of_mem q hp')
      · rw [assocSet, if_neg hq] at hp
        rcases List.mem_cons.mp hp with h | hp'
        · rw [h]
          exact hwf q (List.mem_cons_self _ _)
        · exact ih (fun x hx => hwf x (List.mem_cons_of_mem q hx)) p hp'

theorem filter_name_of_none (l : List PipelineStep) (n : String)
    (h : ∀ st ∈ l, st.name ≠ n) :
    l.filter (fun st => st.name == n) = [] := by
  apply List.filter_eq_nil_iff.mpr
  intro st hst
  simp [h st hst]

theorem getSteps_assocSet_filter (r : Registry) (n : String) (s : PipelineStep)
    (hwf : WfReg r) (hnd : (r.map Prod.fst).Nodup) (hs : s.name = n) :
    (getSteps (assocSet r n s)).filter (fun st => st.name == n) = [s] := by
  induction r with
  | nil => simp [assocSet, getSteps, hs]
  | cons p rest ih =>
      by_cases hp : p.1 = n
      · have hrest : ∀ st ∈ getSteps rest, st.name ≠ n := by
          intro st hst hc
          obtain ⟨q, hq, hq2⟩ := List.mem_map.mp hst
          have hqn : q.1 = n := by
            rw [← hq2] at hc
            rw [← hwf q (List.mem_cons_of_mem p hq), hc]
          apply (List.nodup_cons.mp hnd).1
          rw [hp, ← hqn]
          exact List.mem_map_of_mem Prod.fst hq
        rw [assocSet, if_pos hp]
        have hg : getSteps ((p.1, s) :: rest) = s :: getSteps rest := rfl
        rw [hg, List.filter_cons, filter_name_of_none (getSteps rest) n hrest]
        simp [hs]
      · have hpname : (Prod.snd p).name ≠ n := by
          rw [hwf p (List.mem_cons_self _ _)]
          exact hp
        rw [assocSet, if_neg hp]
        have hg : getSteps (p :: assocSet rest n s) =
            Prod.snd p :: getSteps (assocSet rest n s) := rfl
        rw [hg, List.filter_cons]
        simp only [hpname, beq_iff_eq, decide_eq_true_eq, if_neg, if_false]
        exact ih (fun x hx => hwf x (List.mem_cons_of_mem p hx))
          (List.nodup_cons.mp hnd).2

/-! ## Topological-order predicates over the dependency graph -/

/-- `l` is a valid topological order w.r.t. the resolved set `names`: a step
never appears before any of its declared dependencies that belong to the
set. -/
def IsTopoOrder (r : Registry) (names l : List String) : Prop :=
  ∀ p s q, l = p ++ s :: q → ∀ d ∈ depsOf r s, d ∈ names → d ∈ p

/-- Snoc-structured certificate of `IsTopoOrder`, matching how the DFS result
array grows. -/
inductive TopoAcc (r : Registry) (names : List String) : List String → Prop
  | nil : TopoAcc r names []
  | snoc (l : List String) (n : String) : TopoAcc r names l →
      (∀ d ∈ depsOf r n, d ∈ names → d ∈ l) → TopoAcc r names (l ++ [n])

theorem topoAcc_isTopoOrder (r : Registry) (names l : List String)
    (h : TopoAcc r names l) : IsTopoOrder r names l := by
  induction h with
  | nil =>
      intro p s q hpq
      exact absurd hpq.symm (List.append_ne_nil_of_right_ne_nil p (by simp))
  | snoc l n hl hdeps ih =>
      intro p s q hpq d hd hdn
      rcases List.eq_nil_or_concat q with rfl | ⟨q', x, rfl⟩
      · have h2 : p ++ [s] = l ++ [n] := by simpa using hpq.symm
        have hlen : p.length = l.length := by
          have := congrArg List.length h2
          simpa using this
        obtain ⟨hpl, hsn⟩ := List.append_inj h2 hlen
        have hsn' : s = n := by simpa using hsn
        rw [hpl]
        rw [hsn'] at hd
        exact hdeps d hd hdn
      · have h2 : l ++ [n] = (p ++ s :: q') ++ [x] := by
          rw [hpq]
          simp
        have hlen : l.length = (p ++ s :: q').length := by
          have := congrArg List.length h2
          simp at this ⊢
          omega
        obtain ⟨hl2, -⟩ := List.append_inj h2 hlen
        exact ih p s q' hl2 d hd hdn

/-! ## Further association-list lemmas -/

theorem assocGet_eq_none_iff {κ α : Type} [DecidableEq κ] (l : List (κ × α))
    (k : κ) : assocGet l k = none ↔ k ∉ l.map Prod.fst := by
  induction l with
  | nil => simp [assocGet]
  | cons p rest ih =>
      by_cases hp : p.1 = k
      · simp [assocGet, hp]
      · have hne : ¬ k = p.1 := fun hc => hp hc.symm
        simp [assocGet, hp, ih, hne]

theorem assocGet_isSome_of_mem_keys {κ α : Type} [DecidableEq κ]
    (l : List (κ × α)) (k : κ) (h : k ∈ l.map Prod.fst) :
    ∃ v, assocGet l k = some v := by
  cases hg : assocGet l k with
  | none => exact absurd ((assocGet_eq_none_iff l k).mp hg) (by simp [h])
  | some v => exact ⟨v, rfl⟩

theorem assocGet_append_left {κ α : Type} [DecidableEq κ]
    (l1 l2 : List (κ × α)) (k : κ) (v : α) (h : assocGet l1 k = some v) :
    assocGet (l1 ++ l2) k = some v := by
  induction l1 with
  | nil => simp [assocGet] at h
  | cons p rest ih =>
      by_cases hp : p.1 = k
      · simp only [assocGet, hp, if_pos] at h
        simp [assocGet, hp, h]
      · simp only [assocGet, hp, if_neg, if_false] at h ⊢
        exact ih h

theorem assocGet_append_right {κ α : Type} [DecidableEq κ]
    (l1 l2 : List (κ × α)) (k : κ) (h : k ∉ l1.map Prod.fst) :
    assocGet (l1 ++ l2) k = assocGet l2 k := by
  induction l1 with
  | nil => simp
  | cons p rest ih =>
      have hp : p.1 ≠ k := by
        intro hc
        exact h (by simp [← hc])
      have hrest : k ∉ rest.map Prod.fst := by
        intro hc
        exact h (by simp [hc])
      simp [assocGet, hp, ih hrest]

theorem assocSet_of_not_mem_keys {κ α : Type} [DecidableEq κ]
    (l : List (κ × α)) (k : κ) (v : α) (h : k ∉ l.map Prod.fst) :
    assocSet l k v = l ++ [(k, v)] := by
  induction l with
  | nil => simp [assocSet]
  | cons p rest ih =>
      have hp : p.1 ≠ k := by
        intro hc
        exact h (by simp [← hc])
      have hrest : k ∉ rest.map Prod.fst := by
        intro hc
        exact h (by simp [hc])
      simp [assocSet, hp, ih hrest]

theorem keys_unique_value {κ α : Type} [DecidableEq κ] (l : List (κ × α))
    (hnd : (l.map Prod.fst).Nodup) (k : κ) (v1 v2 : α)
    (h1 : (k, v1) ∈ l) (h2 : (k, v2) ∈ l) : v1 = v2 := by
  induction l with
  | nil => cases h1
  | cons p rest ih =>
      rcases List.mem_cons.mp h1 with e1 | m1
      · rcases List.mem_cons.mp h2 with e2 | m2
        · have h12 : (k, v1) = (k, v2) := e1.trans e2.symm
          exact ((Prod.mk.injEq _ _ _ _).mp h12).2
        · exfalso
          apply (List.nodup_cons.mp hnd).1
          rw [← e1]
          show k ∈ rest.map Prod.fst
          exact List.mem_map_of_mem Prod.fst m2
      · rcases List.mem_cons.mp h2 with e2 | m2
        · exfalso
          apply (List.nodup_cons.mp hnd).1
          rw [← e2]
          show k ∈ rest.map Prod.fst
          exact List.mem_map_of_mem Prod.fst m1
        · exact ih (List.nodup_cons.mp hnd).2 m1 m2

theorem mem_of_assocGet_mem_keys {κ α : Type} [DecidableEq κ]
    (l : List (κ × α)) (k : κ) (v : α) (h : (k, v) ∈ l) :
    k ∈ l.map Prod.fst :=
  List.mem_map_of_mem Prod.fst h

/-! ## Soundness and success of the topological-sort DFS -/

/-- Ranking certificate that the dependency graph restricted to `names` is
acyclic: every in-set edge strictly decreases the rank. -/
def RankedAcyclic (r : Registry) (names : List String) (rank : String → Nat) :
    Prop :=
  ∀ n ∈ names, ∀ d ∈ depsOf r n, d ∈ names → rank d < rank n

theorem exceptFold_nil {α : Type} (f : α → String → Except String α) (a : α) :
    exceptFold f [] a = .ok a := rfl

theorem exceptFold_cons {α : Type} (f : α → String → Except String α)
    (x : String) (xs : List String) (a : α) :
    exceptFold f (x :: xs) a =
      match f a x with
      | .error e => .error e
      | .ok a2 => exceptFold f xs a2 := rfl

theorem visit_zero (r : Registry) (names : List String)
    (visiting : List String) (n : String) (st : List String) :
    visit r names 0 visiting n st =
      if n ∈ visiting then
        .error ("Circular dependency detected involving step: " ++ n)
      else if n ∈ st then .ok st
      else .error "model fuel exhausted" := rfl

theorem visit_succ (r : Registry) (names : List String) (f : Nat)
    (visiting : List String) (n : String) (st : List String) :
    visit r names (f + 1) visiting n st =
      if n ∈ visiting then
        .error ("Circular dependency detected involving step: " ++ n)
      else if n ∈ st then .ok st
      else
        match exceptFold
            (fun st2 dep =>
              if dep ∈ names then visit r names f (n :: visiting) dep st2
              else .ok st2)
            (depsOf r n) st with
        | .error e => .error e
        | .ok st2 => .ok (st2 ++ [n]) := rfl

/-- What a successful `visit` guarantees: the result extends the input by
in-set names outside `visiting`, contains the visited name, and preserves
duplicate-freeness and the topological certificate. -/
theorem visit_post (r : Registry) (names : List String) :
    ∀ fuel visiting n st st2,
      n ∈ names →
      visit r names fuel visiting n st = .ok st2 →
      (∃ ext, st2 = st ++ ext ∧ ∀ m ∈ ext, m ∈ names ∧ m ∉ visiting) ∧
      n ∈ st2 ∧
      (st.Nodup → st2.Nodup) ∧
      (TopoAcc r names st → TopoAcc r names st2) := by
  intro fuel
  induction fuel with
  | zero =>
      intro visiting n st st2 hn hv
      rw [visit_zero] at hv
      by_cases h1 : n ∈ visiting
      · rw [if_pos h1] at hv
        cases hv
      · by_cases h2 : n ∈ st
        · rw [if_neg h1, if_pos h2] at hv
          injection hv with hv
          subst hv
          exact ⟨⟨[], by simp, by simp⟩, h2, id, id⟩
        · rw [if_neg h1, if_neg h2] at hv
          cases hv
  | succ f ih =>
      intro visiting n st st2 hn hv
      rw [visit_succ] at hv
      by_cases h1 : n ∈ visiting
      · rw [if_pos h1] at hv
        cases hv
      by_cases h2 : n ∈ st
      · rw [if_neg h1, if_pos h2] at hv
        injection hv with hv
        subst hv
        exact ⟨⟨[], by simp, by simp⟩, h2, id, id⟩
      rw [if_neg h1, if_neg h2] at hv
      have foldPost : ∀ (ds : List String) (st0 stf : List String),
          exceptFold
              (fun s2 dep =>
                if dep ∈ names then visit r names f (n :: visiting) dep s2
                else .ok s2)
              ds st0 = .ok stf →
          (∃ ext, stf = st0 ++ ext ∧ ∀ m ∈ ext, m ∈ names ∧ m ∉ n :: visiting) ∧
          (st0.Nodup → stf.Nodup) ∧
          (TopoAcc r names st0 → TopoAcc r names stf) ∧
          (∀ d ∈ ds, d ∈ names → d ∈ stf) := by
        intro ds
        induction ds with
        | nil =>
            intro st0 stf hf
            rw [exceptFold_nil] at hf
            injection hf with hf
            subst hf
            exact ⟨⟨[], by simp, by simp⟩, id, id, by simp⟩
        | cons d ds ihd =>
            intro st0 stf hf
            rw [exceptFold_cons] at hf
            by_cases hd : d ∈ names
            · rw [if_pos hd] at hf
              cases hvis : visit r names f (n :: visiting) d st0 with
              | error e => rw [hvis] at hf; cases hf
              | ok st1 =>
                  rw [hvis] at hf
                  obtain ⟨⟨ext1, he1, hm1⟩, hdin, hnd1, ht1⟩ :=
                    ih (n :: visiting) d st0 st1 hd hvis
                  obtain ⟨⟨ext2, he2, hm2⟩, hnd2, ht2, hall⟩ := ihd st1 stf hf
                  refine ⟨⟨ext1 ++ ext2, by rw [he2, he1, List.append_assoc], ?_⟩,
                    fun h => hnd2 (hnd1 h), fun h => ht2 (ht1 h), ?_⟩
                  · intro m hm
                    rcases List.mem_append.mp hm with h | h
                    · exact hm1 m h
                    · exact hm2 m h
                  · intro d2 hd2 hd2n
                    rcases List.mem_cons.mp hd2 with rfl | h
                    · rw [he2]
                      exact List.mem_append_left _ hdin
                    · exact hall d2 h hd2n
            · rw [if_neg hd] at hf
              obtain ⟨hext, hnd2, ht2, hall⟩ := ihd st0 stf hf
              refine ⟨hext, hnd2, ht2, ?_⟩
              intro d2 hd2 hd2n
              rcases List.mem_cons.mp hd2 with rfl | h
              · exact absurd hd2n hd
              · exact hall d2 h hd2n
      cases hfold : exceptFold
          (fun s2 dep =>
            if dep ∈ names then visit r names f (n :: visiting) dep s2
            else .ok s2)
          (depsOf r n) st with
      | error e => rw [hfold] at hv; cases hv
      | ok stm =>
          rw [hfold] at hv
          injection hv with hv
          subst hv
          obtain ⟨⟨ext, hext, hmem⟩, hnd, ht, hall⟩ := foldPost (depsOf r n) st stm hfold
          have hnotm : n ∉ stm := by
            rw [hext]
            intro hc
            rcases List.mem_append.mp hc with h | h
            · exact h2 h
            · exact (hmem n h).2 (List.mem_cons_self n visiting)
          refine ⟨⟨ext ++ [n], by rw [hext, List.append_assoc], ?_⟩,
            List.mem_append_right _ (List.mem_cons_self n []), ?_, ?_⟩
          · intro m hm
            rcases List.mem_append.mp hm with h | h
            · exact ⟨(hmem m h).1,
                fun hc => (hmem m h).2 (List.mem_cons_of_mem n hc)⟩
            · rw [List.mem_singleton.mp h]
              exact ⟨hn, h1⟩
          · intro h
            have := hnd h
            simp [List.nodup_append, this, hnotm]
          · intro h
            exact TopoAcc.snoc stm n (ht h) (fun d hd hdn => hall d hd hdn)

/-- Under a rank certificate, `visit` always succeeds given enough fuel. -/
theorem visit_ok (r : Registry) (names : List String) (rank : String → Nat)
    (hr : RankedAcyclic r names rank) :
    ∀ fuel n visiting st, n ∈ names → rank n < fuel →
      (∀ v ∈ visiting, rank n < rank v) →
      ∃ st2, visit r names fuel visiting n st = .ok st2 := by
  intro fuel
  induction fuel with
  | zero => intro n _ _ _ h; cases h
  | succ f ih =>
      intro n visiting st hn hfuel hvis
      have hnv : n ∉ visiting := by
        intro hc
        exact absurd (hvis n hc) (lt_irrefl _)
      by_cases hst : n ∈ st
      · exact ⟨st, by rw [visit_succ, if_neg hnv, if_pos hst]⟩
      · obtain ⟨stm, hfold⟩ :=
          exceptFold_ok
            (fun s2 dep =>
              if dep ∈ names then visit r names f (n :: visiting) dep s2
              else .ok s2)
            (depsOf r n)
            (fun a x hx => by
              by_cases hxn : x ∈ names
              · have hrank := hr n hn x hx hxn
                obtain ⟨st2, hst2⟩ := ih x (n :: visiting) a hxn
                  (lt_of_lt_of_le hrank (Nat.lt_succ_iff.mp hfuel))
                  (by
                    intro v hv
                    rcases List.mem_cons.mp hv with rfl | hv2
                    · exact hrank
                    · exact lt_trans hrank (hvis v hv2))
                refine ⟨st2, ?_⟩
                show (if x ∈ names then visit r names f (n :: visiting) x a
                  else .ok a) = Except.ok st2
                rw [if_pos hxn]
                exact hst2
              · refine ⟨a, ?_⟩
                show (if x ∈ names then visit r names f (n :: visiting) x a
                  else .ok a) = Except.ok a
                rw [if_neg hxn])
            st
        exact ⟨stm ++ [n], by rw [visit_succ, if_neg hnv, if_neg hst, hfold]⟩

/-- `topologicalSort` on a rank-certified acyclic set succeeds and returns a
duplicate-free topological order of exactly that set. -/
theorem topologicalSort_facts (r : Registry) (names : List String)
    (rank : String → Nat) (fuel : Nat)
    (hr : RankedAcyclic r names rank)
    (hfuel : ∀ n ∈ names, rank n < fuel) :
    ∃ sorted, topologicalSort r fuel names = .ok sorted ∧
      (∀ m, m ∈ sorted ↔ m ∈ names) ∧ sorted.Nodup ∧
      TopoAcc r names sorted := by
  have main : ∀ (ms : List String) (st0 : List String),
      (∀ m ∈ ms, m ∈ names) →
      (∀ x ∈ st0, x ∈ names) → st0.Nodup → TopoAcc r names st0 →
      ∃ out, exceptFold (fun st n => visit r names fuel [] n st) ms st0 = .ok out ∧
        (∀ x ∈ out, x ∈ names) ∧ (∀ m ∈ ms, m ∈ out) ∧
        (∀ x ∈ st0, x ∈ out) ∧ out.Nodup ∧ TopoAcc r names out := by
    intro ms
    induction ms with
    | nil =>
        intro st0 _ h1 h2 h3
        exact ⟨st0, exceptFold_nil _ _, h1, by simp, fun x hx => hx, h2, h3⟩
    | cons m ms ihm =>
        intro st0 hms h1 h2 h3
        have hmn : m ∈ names := hms m (List.mem_cons_self m ms)
        obtain ⟨st1, hst1⟩ := visit_ok r names rank hr fuel m [] st0 hmn
          (hfuel m hmn) (by intro v hv; cases hv)
        obtain ⟨⟨ext, hext, hmem⟩, hmm, hnd, ht⟩ :=
          visit_post r names fuel [] m st0 st1 hmn hst1
        have h1' : ∀ x ∈ st1, x ∈ names := by
          intro x hx
          rw [hext] at hx
          rcases List.mem_append.mp hx with h | h
          · exact h1 x h
          · exact (hmem x h).1
        obtain ⟨out, hout, ho1, ho2, ho3, ho4, ho5⟩ :=
          ihm st1 (fun x hx => hms x (List.mem_cons_of_mem m hx)) h1'
            (hnd h2) (ht h3)
        refine ⟨out, ?_, ho1, ?_, ?_, ho4, ho5⟩
        · rw [exceptFold_cons, hst1]
          exact hout
        · intro x hx
          rcases List.mem_cons.mp hx with rfl | h
          · exact ho3 x hmm
          · exact ho2 x h
        · intro x hx
          apply ho3
          rw [hext]
          exact List.mem_append_left _ hx
  obtain ⟨out, hout, ho1, ho2, _, ho4, ho5⟩ :=
    main names [] (fun m hm => hm) (by simp) List.nodup_nil TopoAcc.nil
  exact ⟨out, hout, fun m => ⟨fun h => ho1 m h, fun h => ho2 m h⟩, ho4, ho5⟩

/-! ## Level assignment: `buildLevels` invariants -/

theorem mdlStep_le (levels : List (String × Int)) (acc : Int) (d : String) :
    acc ≤ mdlStep levels acc d := by
  unfold mdlStep
  cases assocGet levels d with
  | none => exact le_refl acc
  | some l =>
      by_cases h : l > acc
      · simp [h]
        exact le_of_lt h
      · simp [h]

theorem foldl_mdlStep_mono (levels : List (String × Int)) :
    ∀ (deps : List String) (init : Int),
      init ≤ deps.foldl (mdlStep levels) init := by
  intro deps
  induction deps with
  | nil => intro init; exact le_refl init
  | cons d ds ih =>
      intro init
      exact le_trans (mdlStep_le levels init d) (ih (mdlStep levels init d))

theorem foldl_mdlStep_achieved (levels : List (String × Int)) :
    ∀ (deps : List String) (init : Int),
      deps.foldl (mdlStep levels) init = init ∨
      ∃ d ∈ deps, assocGet levels d = some (deps.foldl (mdlStep levels) init) := by
  intro deps
  induction deps with
  | nil => intro init; exact Or.inl rfl
  | cons d ds ih =>
      intro init
      rw [List.foldl_cons]
      rcases ih (mdlStep levels init d) with h | ⟨d2, hd2, hg⟩
      · rw [h]
        unfold mdlStep
        cases hgd : assocGet levels d with
        | none => exact Or.inl rfl
        | some l =>
            by_cases hl : l > init
            · exact Or.inr ⟨d, List.mem_cons_self d ds, by simp [hl, hgd]⟩
            · left
              simp [hl]
      · exact Or.inr ⟨d2, List.mem_cons_of_mem d hd2, hg⟩

theorem foldl_mdlStep_ub (levels : List (String × Int)) :
    ∀ (deps : List String) (init : Int) (d : String) (l : Int),
      d ∈ deps → assocGet levels d = some l →
      l ≤ deps.foldl (mdlStep levels) init := by
  intro deps
  induction deps with
  | nil => intro init d l hd; cases hd
  | cons d0 ds ih =>
      intro init d l hd hg
      rw [List.foldl_cons]
      rcases List.mem_cons.mp hd with rfl | hmem
      · have h1 : l ≤ mdlStep levels init d := by
          unfold mdlStep
          rw [hg]
          by_cases hl : l > init
          · simp [hl]
          · simp only [hl, if_neg, if_false]
            omega
        exact le_trans h1 (foldl_mdlStep_mono levels ds (mdlStep levels init d))
      · exact ih (mdlStep levels init d0) d l hmem hg

theorem buildLevels_nil (r : Registry) (acc : List (String × Int)) :
    buildLevels r [] acc = .ok acc := rfl

theorem buildLevels_cons (r : Registry) (n : String) (ns : List String)
    (acc : List (String × Int)) :
    buildLevels r (n :: ns) acc =
      match lookupStep r n with
      | none => .error ("Step not found: " ++ n)
      | some step =>
          buildLevels r ns
            (assocSet acc n (maxDepLevel acc step.dependencies + 1)) := rfl

/-- Invariant of the level table: levels are non-negative, every positive
level has a predecessor level, and every in-set dependency of a tabulated
step has a strictly smaller tabulated level. -/
def LevelsInv (r : Registry) (names : List String)
    (acc : List (String × Int)) : Prop :=
  (∀ p ∈ acc, 0 ≤ Prod.snd p) ∧
  (∀ p ∈ acc, Prod.snd p ≠ 0 → ∃ m, (m, Prod.snd p - 1) ∈ acc) ∧
  (∀ p ∈ acc, ∀ d ∈ depsOf r (Prod.fst p), d ∈ names →
    ∃ ld, assocGet acc d = some ld ∧ ld < Prod.snd p)

theorem buildLevels_facts (r : Registry) (names : List String) :
    ∀ (todo : List String) (acc : List (String × Int)),
      (∀ n ∈ todo, (lookupStep r n).isSome = true) →
      (acc.map Prod.fst ++ todo).Nodup →
      IsTopoOrder r names (acc.map Prod.fst ++ todo) →
      LevelsInv r names acc →
      ∃ lv, buildLevels r todo acc = .ok lv ∧
        lv.map Prod.fst = acc.map Prod.fst ++ todo ∧
        LevelsInv r names lv ∧ (∀ p ∈ acc, p ∈ lv) := by
  intro todo
  induction todo with
  | nil =>
      intro acc _ _ _ hinv
      exact ⟨acc, buildLevels_nil r acc, by simp, hinv, fun p hp => hp⟩
  | cons n ns ih =>
      intro acc hreg hnd htopo hinv
      obtain ⟨step, hstep⟩ := Option.isSome_iff_exists.mp
        (hreg n (List.mem_cons_self n ns))
      have hdeps : depsOf r n = step.dependencies := by
        unfold depsOf
        rw [hstep]
      have hkeyn : n ∉ acc.map Prod.fst := by
        have := (List.nodup_append.mp hnd).2.2
        intro hc
        exact this hc (List.mem_cons_self n ns)
      set L : Int := maxDepLevel acc step.dependencies + 1 with hL
      have hset : assocSet acc n L = acc ++ [(n, L)] :=
        assocSet_of_not_mem_keys acc n L hkeyn
      have hkeys2 : (assocSet acc n L).map Prod.fst = acc.map Prod.fst ++ [n] := by
        rw [hset]
        simp
      have hdepsacc : ∀ d ∈ step.dependencies, d ∈ names →
          d ∈ acc.map Prod.fst := by
        intro d hd hdn
        have := htopo (acc.map Prod.fst) n ns rfl d (by rw [hdeps]; exact hd) hdn
        exact this
      have hLpos : 0 ≤ L := by
        have := foldl_mdlStep_mono acc step.dependencies (-1)
        unfold maxDepLevel at hL
        omega
      have hinv2 : LevelsInv r names (assocSet acc n L) := by
        rw [hset]
        refine ⟨?_, ?_, ?_⟩
        · intro p hp
          rcases List.mem_append.mp hp with h | h
          · exact hinv.1 p h
          · rw [List.mem_singleton.mp h]
            exact hLpos
        · intro p hp hpne
          rcases List.mem_append.mp hp with h | h
          · obtain ⟨m, hm⟩ := hinv.2.1 p h hpne
            exact ⟨m, List.mem_append_left _ hm⟩
          · rw [List.mem_singleton.mp h] at hpne ⊢
            have hmneg : maxDepLevel acc step.dependencies ≠ -1 := by
              intro hc
              rw [hL, hc] at hpne
              simp at hpne
            rcases foldl_mdlStep_achieved acc step.dependencies (-1) with h2 | ⟨d, hd, hg⟩
            · exact absurd h2 (by unfold maxDepLevel at hmneg; exact hmneg)
            · refine ⟨d, List.mem_append_left _ ?_⟩
              have hsnd : (n, L).snd - 1 = maxDepLevel acc step.dependencies := by
                show L - 1 = maxDepLevel acc step.dependencies
                omega
              rw [hsnd]
              exact assocGet_mem acc d _ hg
        · intro p hp d hd hdn
          rcases List.mem_append.mp hp with h | h
          · obtain ⟨ld, hld, hlt⟩ := hinv.2.2 p h d hd hdn
            exact ⟨ld, assocGet_append_left acc [(n, L)] d ld hld, hlt⟩
          · rw [List.mem_singleton.mp h] at hd ⊢
            have hd2 : d ∈ step.dependencies := by
              rw [← hdeps]
              exact hd
            obtain ⟨ld, hld⟩ := assocGet_isSome_of_mem_keys acc d
              (hdepsacc d hd2 hdn)
            refine ⟨ld, assocGet_append_left acc [(n, L)] d ld hld, ?_⟩
            have := foldl_mdlStep_ub acc step.dependencies (-1) d ld hd2 hld
            unfold maxDepLevel at hL
            omega
      have hnd2 : ((assocSet acc n L).map Prod.fst ++ ns).Nodup := by
        rw [hkeys2, List.append_assoc]
        simpa using hnd
      have htopo2 : IsTopoOrder r names ((assocSet acc n L).map Prod.fst ++ ns) := by
        rw [hkeys2, List.append_assoc]
        simpa using htopo
      obtain ⟨lv, hlv, hk, hi, hsub⟩ := ih (assocSet acc n L)
        (fun m hm => hreg m (List.mem_cons_of_mem n hm)) hnd2 htopo2 hinv2
      refine ⟨lv, ?_, ?_, hi, ?_⟩
      · rw [buildLevels_cons, hstep]
        exact hlv
      · rw [hk, hkeys2, List.append_assoc]
        simp
      · intro p hp
        apply hsub
        rw [hset]
        exact List.mem_append_left _ hp

/-! ## First-occurrence deduplication lemmas -/

theorem dedupFirst_go_nodup : ∀ (xs acc : List String), acc.Nodup →
    (dedupFirst.go acc xs).Nodup := by
  intro xs
  induction xs with
  | nil => intro acc h; exact h
  | cons x xs ih =>
      intro acc h
      exact ih (setAdd acc x) (setAdd_nodup acc x h)

theorem dedupFirst_go_mem : ∀ (xs acc : List String) (y : String),
    y ∈ dedupFirst.go acc xs ↔ y ∈ acc ∨ y ∈ xs := by
  intro xs
  induction xs with
  | nil => intro acc y; simp [dedupFirst.go]
  | cons x xs ih =>
      intro acc y
      rw [dedupFirst.go, ih (setAdd acc x) y, mem_setAdd_iff]
      constructor
      · rintro ((h | h) | h)
        · exact Or.inl h
        · exact Or.inr (by rw [h]; exact List.mem_cons_self x xs)
        · exact Or.inr (List.mem_cons_of_mem x h)
      · rintro (h | h)
        · exact Or.inl (Or.inl h)
        · rcases List.mem_cons.mp h with rfl | h2
          · exact Or.inl (Or.inr rfl)
          · exact Or.inr h2

theorem dedupFirst_nodup (xs : List String) : (dedupFirst xs).Nodup :=
  dedupFirst_go_nodup xs [] List.nodup_nil

theorem mem_dedupFirst (xs : List String) (y : String) :
    y ∈ dedupFirst xs ↔ y ∈ xs := by
  rw [dedupFirst, dedupFirst_go_mem xs [] y]
  simp

/-! ## Bucketing by level: `groupByLevel` invariants -/

/-- Relation between the processed prefix of the level table and the bucket
accumulator: each bucket holds exactly the steps tabulated at its level, in
order and without duplicates; the bucket keys are exactly the levels seen. -/
def GroupInv (done : List (String × Int))
    (acc : List (Int × List String)) : Prop :=
  (∀ l g, assocGet acc l = some g →
    (∀ m, m ∈ g ↔ (m, l) ∈ done) ∧ g.Nodup) ∧
  (∀ l, l ∈ acc.map Prod.fst ↔ ∃ m, (m, l) ∈ done) ∧
  (acc.map Prod.fst).Nodup

theorem assocGet_append_single_ne {κ α : Type} [DecidableEq κ]
    (l : List (κ × α)) (k k2 : κ) (v : α) (h : k2 ≠ k) :
    assocGet (l ++ [(k, v)]) k2 = assocGet l k2 := by
  cases hg : assocGet l k2 with
  | some w => exact assocGet_append_left l [(k, v)] k2 w hg
  | none =>
      rw [assocGet_append_right l [(k, v)] k2
        ((assocGet_eq_none_iff l k2).mp hg)]
      have hne : ¬ k = k2 := fun hc => h hc.symm
      simp [assocGet, hne]

theorem gblStep_inv (done : List (String × Int))
    (acc : List (Int × List String)) (p : String × Int)
    (hfresh : p.1 ∉ done.map Prod.fst)
    (hinv : GroupInv done acc) : GroupInv (done ++ [p]) (gblStep acc p) := by
  obtain ⟨ha, hb, hc⟩ := hinv
  unfold gblStep
  cases hget : assocGet acc p.2 with
  | some g =>
      have hkeymem : p.2 ∈ acc.map Prod.fst := by
        by_contra hc2
        rw [(assocGet_eq_none_iff acc p.2).mpr hc2] at hget
        cases hget
      have hkeys : (assocSet acc p.2 (g ++ [p.1])).map Prod.fst =
          acc.map Prod.fst := by
        rw [assocSet_keys]
        simp [hkeymem]
      refine ⟨?_, ?_, ?_⟩
      · intro l g2 hg2
        by_cases hl : l = p.2
        · subst hl
          rw [assocGet_assocSet_self] at hg2
          injection hg2 with hg2
          subst hg2
          obtain ⟨hmemg, hndg⟩ := ha p.2 g hget
          constructor
          · intro m
            rw [List.mem_append, List.mem_singleton, hmemg m,
              List.mem_append, List.mem_singleton]
            constructor
            · rintro (h | rfl)
              · exact Or.inl h
              · exact Or.inr (by rw [Prod.mk.eta])
            · rintro (h | h)
              · exact Or.inl h
              · exact Or.inr (congrArg Prod.fst h)
          · have hpg : p.1 ∉ g := by
              intro hcg
              exact hfresh (List.mem_map_of_mem Prod.fst ((hmemg p.1).mp hcg))
            simp [List.nodup_append, hndg, hpg]
        · rw [assocGet_assocSet_ne acc p.2 l (g ++ [p.1])
            (fun h => hl h.symm)] at hg2
          obtain ⟨hmemg, hndg⟩ := ha l g2 hg2
          refine ⟨?_, hndg⟩
          intro m
          rw [hmemg m, List.mem_append, List.mem_singleton]
          constructor
          · exact fun h => Or.inl h
          · rintro (h | h)
            · exact h
            · exact absurd (congrArg Prod.snd h) hl
      · intro l
        rw [hkeys, hb l]
        constructor
        · rintro ⟨m, hm⟩
          exact ⟨m, List.mem_append_left _ hm⟩
        · rintro ⟨m, hm⟩
          rcases List.mem_append.mp hm with h | h
          · exact ⟨m, h⟩
          · have hlp : l = p.2 := congrArg Prod.snd (List.mem_singleton.mp h)
            obtain ⟨m2, hm2⟩ := (hb p.2).mp hkeymem
            exact ⟨m2, by rw [hlp]; exact hm2⟩
      · rw [hkeys]
        exact hc
  | none =>
      have hkeynot : p.2 ∉ acc.map Prod.fst :=
        (assocGet_eq_none_iff acc p.2).mp hget
      refine ⟨?_, ?_, ?_⟩
      · intro l g2 hg2
        by_cases hl : l = p.2
        · subst hl
          rw [assocGet_append_right acc [(p.2, [p.1])] p.2 hkeynot] at hg2
          simp only [assocGet, if_pos] at hg2
          injection hg2 with hg2
          subst hg2
          constructor
          · intro m
            rw [List.mem_singleton, List.mem_append, List.mem_singleton]
            constructor
            · rintro rfl
              exact Or.inr (by rw [Prod.mk.eta])
            · rintro (h | h)
              · exfalso
                apply hkeynot
                rw [hb p.2]
                exact ⟨m, h⟩
              · exact congrArg Prod.fst h
          · exact List.nodup_singleton p.1
        · rw [assocGet_append_single_ne acc p.2 l [p.1] hl] at hg2
          obtain ⟨hmemg, hndg⟩ := ha l g2 hg2
          refine ⟨?_, hndg⟩
          intro m
          rw [hmemg m, List.mem_append, List.mem_singleton]
          constructor
          · exact fun h => Or.inl h
          · rintro (h | h)
            · exact h
            · exact absurd (congrArg Prod.snd h) hl
      · intro l
        constructor
        · intro hl
          rw [List.map_append] at hl
          rcases List.mem_append.mp hl with h | h
          · obtain ⟨m, hm⟩ := (hb l).mp h
            exact ⟨m, List.mem_append_left _ hm⟩
          · simp at h
            rw [h]
            exact ⟨p.1, List.mem_append_right _ (by
              rw [Prod.mk.eta]
              exact List.mem_singleton.mpr rfl)⟩
        · rintro ⟨m, hm⟩
          rw [List.map_append]
          rcases List.mem_append.mp hm with h | h
          · exact List.mem_append_left _ ((hb l).mpr ⟨m, h⟩)
          · have hlp : l = p.2 := congrArg Prod.snd (List.mem_singleton.mp h)
            rw [hlp]
            exact List.mem_append_right _ (by simp)
      · rw [List.map_append]
        simp only [List.map_cons, List.map_nil]
        rw [List.nodup_append]
        refine ⟨hc, List.nodup_singleton p.2, ?_⟩
        intro a ha2 hb2
        simp at hb2
        rw [hb2] at ha2
        exact hkeynot ha2

theorem groupByLevel_inv : ∀ (entries done : List (String × Int))
    (acc : List (Int × List String)),
    ((done ++ entries).map Prod.fst).Nodup →
    GroupInv done acc →
    GroupInv (done ++ entries) (entries.foldl gblStep acc) := by
  intro entries
  induction entries with
  | nil =>
      intro done acc _ hinv
      simpa using hinv
  | cons p ps ih =>
      intro done acc hnd hinv
      have hfresh : p.1 ∉ done.map Prod.fst := by
        rw [List.map_append] at hnd
        have := (List.nodup_append.mp hnd).2.2
        intro hc
        exact this hc (by simp)
      have hstep := gblStep_inv done acc p hfresh hinv
      have hnd2 : (((done ++ [p]) ++ ps).map Prod.fst).Nodup := by
        rw [List.append_assoc]
        simpa using hnd
      have := ih (done ++ [p]) (gblStep acc p) hnd2 hstep
      rw [List.append_assoc] at this
      simpa using this

theorem groupByLevel_facts (lv : List (String × Int))
    (hnd : (lv.map Prod.fst).Nodup) : GroupInv lv (groupByLevel lv) := by
  have h0 : GroupInv [] [] := by
    refine ⟨?_, ?_, ?_⟩
    · intro l g hg
      cases hg
    · intro l
      simp
    · exact List.nodup_nil
  have := groupByLevel_inv lv [] [] (by simpa using hnd) h0
  simpa [groupByLevel] using this

/-! ## The bucket keys form the contiguous range of levels -/

theorem int_keys_all (S : List Int) (h0 : ∀ l ∈ S, 0 ≤ l)
    (hdc : ∀ l ∈ S, l ≠ 0 → l - 1 ∈ S) :
    ∀ l ∈ S, ∀ k : Int, 0 ≤ k → k ≤ l → k ∈ S := by
  have main : ∀ j : Nat, ∀ l ∈ S, ∀ k : Int, 0 ≤ k → k ≤ l →
      (l - k).toNat = j → k ∈ S := by
    intro j
    induction j with
    | zero =>
        intro l hl k hk0 hkl hj
        have : k = l := by omega
        rw [this]
        exact hl
    | succ j ih =>
        intro l hl k hk0 hkl hj
        have hne : l ≠ k := by omega
        have hlpos : l ≠ 0 := by omega
        have hl1 : l - 1 ∈ S := hdc l hl hlpos
        exact ih (l - 1) hl1 k hk0 (by omega) (by omega)
  intro l hl k hk0 hkl
  exact main (l - k).toNat l hl k hk0 hkl rfl

theorem int_keys_card (S : List Int) (hnd : S.Nodup)
    (h0 : ∀ l ∈ S, 0 ≤ l) (hdc : ∀ l ∈ S, l ≠ 0 → l - 1 ∈ S) :
    ∀ k : Nat, k < S.length ↔ (Int.ofNat k) ∈ S := by
  cases hS : S with
  | nil => intro k; simp
  | cons s0 S0 =>
      rw [← hS]
      have hSne : S ≠ [] := by rw [hS]; exact List.cons_ne_nil s0 S0
      have hTne : S.toFinset.Nonempty := by
        rw [hS]
        exact ⟨s0, by simp⟩
      set M : Int := S.toFinset.max' hTne with hM
      have hMS : M ∈ S := by
        have := S.toFinset.max'_mem hTne
        rw [← hM] at this
        exact List.mem_toFinset.mp this
      have hub : ∀ l ∈ S, l ≤ M := by
        intro l hl
        exact S.toFinset.le_max' l (List.mem_toFinset.mpr hl)
      have hM0 : 0 ≤ M := h0 M hMS
      have hTeq : S.toFinset = Finset.Icc (0 : Int) M := by
        apply Finset.ext
        intro l
        rw [List.mem_toFinset, Finset.mem_Icc]
        constructor
        · intro hl
          exact ⟨h0 l hl, hub l hl⟩
        · rintro ⟨hl0, hlM⟩
          exact int_keys_all S h0 hdc M hMS l hl0 hlM
      have hlen : S.length = M.toNat + 1 := by
        have h1 : S.toFinset.card = S.length := List.toFinset_card_of_nodup hnd
        rw [hTeq] at h1
        rw [Int.card_Icc] at h1
        omega
      intro k
      rw [hlen]
      have hcast : (Int.ofNat k) = (k : Int) := rfl
      constructor
      · intro hk
        have hle : (Int.ofNat k) ≤ M := by rw [hcast]; omega
        exact int_keys_all S h0 hdc M hMS (Int.ofNat k)
          (by rw [hcast]; omega) hle
      · intro hk
        have := hub (Int.ofNat k) hk
        rw [hcast] at this
        omega

/-! ## The collection loop -/

theorem filterMap_eq_map_of_some {α β : Type} (f : α → Option β) (dflt : β) :
    ∀ (xs : List α), (∀ x ∈ xs, (f x).isSome = true) →
      xs.filterMap f = xs.map (fun x => (f x).getD dflt) := by
  intro xs
  induction xs with
  | nil => intro _; rfl
  | cons x xs ih =>
      intro hall
      obtain ⟨v, hv⟩ := Option.isSome_iff_exists.mp
        (hall x (List.mem_cons_self x xs))
      rw [List.filterMap_cons, List.map_cons, hv,
        ih (fun y hy => hall y (List.mem_cons_of_mem x hy))]
      simp [hv]

theorem collectGroups_eq_map (lg : List (Int × List String))
    (hall : ∀ i, i < lg.length → (assocGet lg (Int.ofNat i)).isSome = true) :
    collectGroups lg =
      (List.range lg.length).map (fun i => (assocGet lg (Int.ofNat i)).getD []) := by
  unfold collectGroups
  exact filterMap_eq_map_of_some _ [] _
    (fun x hx => hall x (List.mem_range.mp hx))

theorem topoAcc_append_group (r : Registry) (names : List String) :
    ∀ (g l : List String), TopoAcc r names l →
      (∀ x ∈ g, ∀ d ∈ depsOf r x, d ∈ names → d ∈ l) →
      TopoAcc r names (l ++ g) := by
  intro g
  induction g with
  | nil => intro l h _; simpa using h
  | cons x g ih =>
      intro l h hg
      have h1 : TopoAcc r names (l ++ [x]) :=
        TopoAcc.snoc l x h (hg x (List.mem_cons_self x g))
      have h2 := ih (l ++ [x]) h1 (fun y hy d hd hdn =>
        List.mem_append_left [x] (hg y (List.mem_cons_of_mem x hy) d hd hdn))
      rw [List.append_assoc] at h2
      simpa using h2

/-! ## Full correctness of `createParallelGroups` on a topological input -/

theorem createParallelGroups_facts (r : Registry) (names sorted : List String)
    (hreg : ∀ n ∈ sorted, (lookupStep r n).isSome = true)
    (hnd : sorted.Nodup)
    (hmem : ∀ m, m ∈ sorted ↔ m ∈ names)
    (htopo : TopoAcc r names sorted) :
    ∃ groups, createParallelGroups r sorted = .ok groups ∧
      (∀ n, n ∈ groups.flatten ↔ n ∈ names) ∧
      groups.flatten.Nodup ∧
      (∀ i j gi gj s, groups.get? i = some gi → groups.get? j = some gj →
        s ∈ gi → ∀ d ∈ depsOf r s, d ∈ names → d ∈ gj → j < i) ∧
      TopoAcc r names groups.flatten := by
  obtain ⟨lv, hlv, hk, hinv, -⟩ := buildLevels_facts r names sorted [] hreg
    (by simpa using hnd) (topoAcc_isTopoOrder r names sorted htopo)
    (by refine ⟨?_, ?_, ?_⟩ <;> intro p hp <;> cases hp)
  have hklv : lv.map Prod.fst = sorted := by simpa using hk
  have hndlv : (lv.map Prod.fst).Nodup := by
    rw [hklv]
    exact hnd
  obtain ⟨ga, gbk, gbnd⟩ := groupByLevel_facts lv hndlv
  have h0S : ∀ l ∈ (groupByLevel lv).map Prod.fst, 0 ≤ l := by
    intro l hl
    obtain ⟨m, hm⟩ := (gbk l).mp hl
    exact hinv.1 (m, l) hm
  have hdcS : ∀ l ∈ (groupByLevel lv).map Prod.fst, l ≠ 0 →
      l - 1 ∈ (groupByLevel lv).map Prod.fst := by
    intro l hl hne
    obtain ⟨m, hm⟩ := (gbk l).mp hl
    obtain ⟨m2, hm2⟩ := hinv.2.1 (m, l) hm hne
    exact (gbk (l - 1)).mpr ⟨m2, hm2⟩
  have hiS := int_keys_card ((groupByLevel lv).map Prod.fst) gbnd h0S hdcS
  have hlenS : ((groupByLevel lv).map Prod.fst).length = (groupByLevel lv).length := by
    simp
  have hall : ∀ i, i < (groupByLevel lv).length →
      (assocGet (groupByLevel lv) (Int.ofNat i)).isSome = true := by
    intro i hi
    have hmemS : Int.ofNat i ∈ (groupByLevel lv).map Prod.fst :=
      (hiS i).mp (by rw [hlenS]; exact hi)
    obtain ⟨v, hv⟩ := assocGet_isSome_of_mem_keys (groupByLevel lv)
      (Int.ofNat i) hmemS
    rw [hv]
    rfl
  set L := (groupByLevel lv).length with hL
  set f : Nat → List String :=
    fun i => (assocGet (groupByLevel lv) (Int.ofNat i)).getD [] with hf
  have hcg : collectGroups (groupByLevel lv) = (List.range L).map f :=
    collectGroups_eq_map (groupByLevel lv) hall
  have hbmem : ∀ i, i < L → ∀ m, (m ∈ f i ↔ (m, Int.ofNat i) ∈ lv) := by
    intro i hi m
    obtain ⟨g, hg⟩ := Option.isSome_iff_exists.mp (hall i hi)
    have hgm := (ga (Int.ofNat i) g hg).1 m
    rw [hf]
    simp only [hg, Option.getD_some]
    exact hgm
  have hbnodup : ∀ i, i < L → (f i).Nodup := by
    intro i hi
    obtain ⟨g, hg⟩ := Option.isSome_iff_exists.mp (hall i hi)
    have := (ga (Int.ofNat i) g hg).2
    rw [hf]
    simp only [hg, Option.getD_some]
    exact this
  have hlevrange : ∀ m l, (m, l) ∈ lv → ∃ i : Nat, i < L ∧ l = Int.ofNat i := by
    intro m l hm
    have hlS : l ∈ (groupByLevel lv).map Prod.fst := (gbk l).mpr ⟨m, hm⟩
    have hl0 : 0 ≤ l := h0S l hlS
    refine ⟨l.toNat, ?_, ?_⟩
    · have : Int.ofNat l.toNat ∈ (groupByLevel lv).map Prod.fst := by
        have heq : Int.ofNat l.toNat = l := by
          show ((l.toNat : Nat) : Int) = l
          exact Int.toNat_of_nonneg hl0
        rw [heq]
        exact hlS
      have := (hiS l.toNat).mpr this
      rw [hlenS] at this
      exact this
    · show l = ((l.toNat : Nat) : Int)
      exact (Int.toNat_of_nonneg hl0).symm
  have hget : ∀ i gi, ((List.range L).map f).get? i = some gi ↔
      (i < L ∧ gi = f i) := by
    intro i gi
    constructor
    · intro h
      have hlt : i < L := by
        by_contra hc
        rw [List.get?_eq_none.mpr (by simpa using Nat.le_of_not_lt hc)] at h
        cases h
      refine ⟨hlt, ?_⟩
      rw [List.get?_map, List.get?_range hlt] at h
      injection h with h
      exact h.symm
    · rintro ⟨hlt, rfl⟩
      rw [List.get?_map, List.get?_range hlt]
      rfl
  have hjmem : ∀ n, n ∈ ((List.range L).map f).flatten ↔ n ∈ names := by
    intro n
    rw [List.mem_flatten]
    constructor
    · rintro ⟨g, hg, hng⟩
      obtain ⟨i, hi, rfl⟩ := List.mem_map.mp hg
      have hiL : i < L := List.mem_range.mp hi
      have := (hbmem i hiL n).mp hng
      exact (hmem n).mp (by
        rw [← hklv]
        exact List.mem_map_of_mem Prod.fst this)
    · intro hn
      have : n ∈ lv.map Prod.fst := by
        rw [hklv]
        exact (hmem n).mpr hn
      obtain ⟨p, hp, he⟩ := List.mem_map.mp this
      have hplv : (n, p.2) ∈ lv := by
        rw [← he, Prod.mk.eta]
        exact hp
      obtain ⟨i, hiL, hi⟩ := hlevrange n p.2 hplv
      rw [hi] at hplv
      exact ⟨f i, List.mem_map_of_mem f (List.mem_range.mpr hiL),
        (hbmem i hiL n).mpr hplv⟩
  have hpair : List.Pairwise (fun a b => List.Disjoint (f a) (f b))
      (List.range L) := by
    rw [List.pairwise_iff_get]
    intro i j hij
    rw [List.get_range, List.get_range]
    intro x hxi hxj
    have hiL : (i : Nat) < L := by
      have := i.isLt
      simpa using this
    have hjL : (j : Nat) < L := by
      have := j.isLt
      simpa using this
    have h1 := (hbmem i hiL x).mp hxi
    have h2 := (hbmem j hjL x).mp hxj
    have := keys_unique_value lv hndlv x (Int.ofNat i) (Int.ofNat j) h1 h2
    have hij2 : (i : Nat) = (j : Nat) := by
      have : ((i : Nat) : Int) = ((j : Nat) : Int) := this
      exact_mod_cast this
    rw [Fin.lt_def] at hij
    omega
  have hjnodup : ((List.range L).map f).flatten.Nodup := by
    rw [List.nodup_flatten]
    constructor
    · intro g hg
      obtain ⟨i, hi, rfl⟩ := List.mem_map.mp hg
      exact hbnodup i (List.mem_range.mp hi)
    · exact List.pairwise_map.mpr hpair
  have horder : ∀ i j gi gj s, ((List.range L).map f).get? i = some gi →
      ((List.range L).map f).get? j = some gj →
      s ∈ gi → ∀ d ∈ depsOf r s, d ∈ names → d ∈ gj → j < i := by
    intro i j gi gj s hgi hgj hs d hd hdn hdj
    obtain ⟨hiL, rfl⟩ := (hget i gi).mp hgi
    obtain ⟨hjL, rfl⟩ := (hget j gj).mp hgj
    have hslv := (hbmem i hiL s).mp hs
    have hdlv := (hbmem j hjL d).mp hdj
    obtain ⟨ld, hld, hlt⟩ := hinv.2.2 (s, Int.ofNat i) hslv d hd hdn
    have hldj : ld = Int.ofNat j :=
      keys_unique_value lv hndlv d ld (Int.ofNat j)
        (assocGet_mem lv d ld hld) hdlv
    rw [hldj] at hlt
    have : ((j : Nat) : Int) < ((i : Nat) : Int) := hlt
    exact_mod_cast this
  have htacc : ∀ K, K ≤ L → TopoAcc r names (((List.range K).map f).flatten) := by
    intro K
    induction K with
    | zero => intro _; exact TopoAcc.nil
    | succ K ih =>
        intro hK
        have hKlt : K < L := Nat.lt_of_succ_le hK
        have hprev := ih (Nat.le_of_succ_le hK)
        have hflat : ((List.range (K + 1)).map f).flatten =
            ((List.range K).map f).flatten ++ f K := by
          rw [List.range_succ, List.map_append, List.flatten_append]
          simp
        rw [hflat]
        apply topoAcc_append_group r names (f K) _ hprev
        intro x hx d hd hdn
        have hxlv : (x, Int.ofNat K) ∈ lv := (hbmem K hKlt x).mp hx
        obtain ⟨ld, hld, hlt⟩ := hinv.2.2 (x, Int.ofNat K) hxlv d hd hdn
        have hldlv : (d, ld) ∈ lv := assocGet_mem lv d ld hld
        obtain ⟨i2, hi2L, hi2⟩ := hlevrange d ld hldlv
        have hi2K : i2 < K := by
          rw [hi2] at hlt
          have : ((i2 : Nat) : Int) < ((K : Nat) : Int) := hlt
          exact_mod_cast this
        rw [List.mem_flatten]
        refine ⟨f i2, List.mem_map_of_mem f (List.mem_range.mpr hi2K), ?_⟩
        rw [hi2] at hldlv
        exact (hbmem i2 hi2L d).mpr hldlv
  refine ⟨(List.range L).map f, ?_, hjmem, hjnodup, horder, htacc L (le_refl L)⟩
  simp only [createParallelGroups, hlv]
  rw [hcg]

theorem validateSteps_ok (r : Registry) (req : List String)
    (h : ∀ n ∈ req, (lookupStep r n).isSome = true) :
    validateSteps r req = .ok req := by
  induction req with
  | nil => rfl
  | cons n ns ih =>
      unfold validateSteps
      rw [if_pos (h n (List.mem_cons_self n ns)),
        ih (fun m hm => h m (List.mem_cons_of_mem n hm))]

/-! ## Claim theorems (registration and run-entry error handling) -/

/-- C10: registering a second valid step definition under an already-used name
succeeds (no duplicate-name rejection), silently replaces the earlier
definition — the registry then maps the name to the new definition — and
`getSteps()` holds exactly one entry carrying that name.  The hypotheses ask
that the first registration succeeded, that the resulting registry is
acyclic (certified by `rank`), and that the fuel covers the ranks of the new
step's dependencies. -/
theorem c10_reregistration_replaces (fuel : Nat) (r r1 : Registry)
    (s1 s2 : PipelineStep) (rank : String → Nat)
    (hwf : WfReg r) (hnd : (r.map Prod.fst).Nodup)
    (hname : s2.name = s1.name) (hne : s2.name ≠ "")
    (hreg1 : registerStep fuel r s1 = .ok r1)
    (hr1 : RankedReg r1 rank)
    (hf : ∀ d ∈ s2.dependencies, rank d < fuel) :
    registerStep fuel r1 s2 = .ok (assocSet r1 s2.name s2) ∧
    lookupStep (assocSet r1 s2.name s2) s2.name = some s2 ∧
    (getSteps (assocSet r1 s2.name s2)).filter (fun st => st.name == s2.name) =
      [s2] := by
  have hr1eq : r1 = assocSet r s1.name s1 := registerStep_ok_inv fuel r r1 s1 hreg1
  have hwf1 : WfReg r1 := by
    rw [hr1eq]
    exact wfReg_assocSet r s1 hwf
  have hnd1 : (r1.map Prod.fst).Nodup := by
    rw [hr1eq]
    exact assocSet_keys_nodup r s1.name s1 hnd
  exact ⟨registerStep_ok fuel r1 s2 rank hne hr1 hf,
    assocGet_assocSet_self r1 s2.name s2,
    getSteps_assocSet_filter r1 s2.name s2 hwf1 hnd1 rfl⟩

/-- a second definition under the name "A" with different content -/
def fxA2 : PipelineStep := ⟨"A", [], fxBoomExec, true, 7⟩

/-- C10 witness: registering `fxA` then `fxA2` (both named "A") from the
empty registry. -/
theorem c10_reregistration_witness :
    (WfReg [] ∧ (([] : Registry).map Prod.fst).Nodup ∧ fxA2.name = fxA.name ∧
      fxA2.name ≠ "" ∧ registerStep 5 [] fxA = .ok [("A", fxA)] ∧
      RankedReg [("A", fxA)] (fun _ => 0) ∧
      (∀ d ∈ fxA2.dependencies, (fun (_ : String) => 0) d < 5)) ∧
    (registerStep 5 [("A", fxA)] fxA2 = .ok (assocSet [("A", fxA)] fxA2.name fxA2) ∧
     lookupStep (assocSet [("A", fxA)] fxA2.name fxA2) fxA2.name = some fxA2 ∧
     (getSteps (assocSet [("A", fxA)] fxA2.name fxA2)).filter
        (fun st => st.name == fxA2.name) = [fxA2]) :=
  have hrank : RankedReg [("A", fxA)] (fun _ => 0) := by
    intro p hp d hd
    simp only [List.mem_singleton] at hp
    rw [hp] at hd
    simp [fxA] at hd
  by
  constructor
  · refine ⟨?_, ?_, ?_, ?_, ?_, ?_, ?_⟩
    · exact fun p hp => nomatch hp
    · exact List.nodup_nil
    · exact rfl
    · decide
    · exact rfl
    · exact hrank
    · exact fun d hd => nomatch hd
  · exact c10_reregistration_replaces 5 [] [("A", fxA)] fxA fxA2 (fun _ => 0)
      (fun p hp => nomatch hp) List.nodup_nil rfl (by decide) rfl hrank
      (fun d hd => nomatch hd)

/-- C2 (code bug exhibit): with `B` registered as depending on the
not-yet-registered name `A`, registering `A` with dependency `B` — whose
dependency chain `A → B → A` through the registered step `B` reaches `A`
itself — succeeds instead of failing, and the resulting registry holds the
cycle `A ↔ B`.  `validateNoCycles` never places the step being registered in
its `visiting` set, so cycles through the new step go undetected. -/
theorem c2_cyclic_registration_accepted :
    registerStep 5 [("B", fxDepB)] fxDepA = .ok [("B", fxDepB), ("A", fxDepA)] ∧
    depsOf [("B", fxDepB), ("A", fxDepA)] "A" = ["B"] ∧
    depsOf [("B", fxDepB), ("A", fxDepA)] "B" = ["A"] :=
  ⟨rfl, rfl, rfl⟩

/-- C1 (code bug exhibit): with `B` (level 1) marked `retryable: true` and
throwing, the run still executes level 2 (`C` completes and its log row is
written), `executeSteps` returns normally instead of re-raising, and the
persisted status ends at `partial_failure`, not `failed`:
`Promise.allSettled` in `executePlan` absorbs the exception `executeStep`
re-raised for the retryable step. -/
theorem c1_retryable_failure_swallowed_run :
    executeSteps fxEnv fxRegRetry 10 "e1" none false ⟨[], []⟩ =
      (⟨[⟨"e1", "A", "ok", none⟩, ⟨"e1", "B", "error", some "boom"⟩,
         ⟨"e1", "C", "ok", none⟩],
        [⟨"e1", "processing", some "A"⟩, ⟨"e1", "processing", some "B"⟩,
         ⟨"e1", "processing", some "C"⟩, ⟨"e1", "partial_failure", none⟩]⟩,
       .ok ⟨"e1", fxEmail, ["A", "C"], ["B"],
         [("A", ⟨true, none⟩), ("B", ⟨false, some "boom"⟩),
          ("C", ⟨true, none⟩)]⟩) := by
  decide

/-- C5: with X depending on Y depending on Z registered and nothing else,
planning `["X"]` with dependency resolution resolves `{X, Y, Z}` in
dependency-first order and produces the levels `[[Z], [Y], [X]]`. -/
theorem c5_transitive_dependency_plan :
    createExecutionPlan fxRegXYZ 10 ["X"] false =
      .ok ⟨["Z", "Y", "X"], [["Z"], ["Y"], ["X"]], 3⟩ := by
  decide

/-- C8: when the entity store has no email for the id, `executeSteps` fails
with the entity-not-found error naming the id, and the persisted store is
untouched (no status upsert, no log insert — and hence no step ran). -/
theorem c8_entity_not_found_aborts (env : Env) (r : Registry) (fuel : Nat)
    (emailId : String) (req : Option (List String)) (skip : Bool) (db : DB)
    (h : env.loadEmail emailId = none) :
    executeSteps env r fuel emailId req skip db =
      (db, .error ("Email not found: " ++ emailId)) := by
  simp [executeSteps, h]

/-- C8 witness at the concrete store lacking the id "nope". -/
theorem c8_entity_not_found_witness :
    fxEnv.loadEmail "nope" = none ∧
    executeSteps fxEnv fxRegRetry 10 "nope" none false ⟨[], []⟩ =
      (⟨[], []⟩, .error ("Email not found: " ++ "nope")) :=
  ⟨by decide, c8_entity_not_found_aborts fxEnv fxRegRetry 10 "nope" none false
    ⟨[], []⟩ (by decide)⟩

/-- C7: a requested step list containing an unregistered name makes the run
abort with an unknown-step error naming an offending (unregistered, requested)
step; the store is returned exactly as it was — no status write and no log
write happened — and no partial plan is acted upon. -/
theorem c7_unknown_step_aborts_run (env : Env) (r : Registry) (fuel : Nat)
    (emailId : String) (req : List String) (skip : Bool) (db : DB)
    (em : Email) (n : String)
    (h1 : env.loadEmail emailId = some em) (h2 : n ∈ req)
    (h3 : lookupStep r n = none) :
    ∃ m, m ∈ req ∧ lookupStep r m = none ∧
      executeSteps env r fuel emailId (some req) skip db =
        (db, .error ("Unknown pipeline step: " ++ m)) := by
  obtain ⟨m, hm1, hm2, hm3⟩ := validateSteps_error_of_unknown r req n h2 h3
  refine ⟨m, hm1, hm2, ?_⟩
  simp [executeSteps, h1, createExecutionPlan, hm3]

/-- C7 witness: requesting the unregistered name "Q". -/
theorem c7_unknown_step_witness :
    (fxEnv.loadEmail "e1" = some fxEmail ∧ "Q" ∈ ["A", "Q"] ∧
      lookupStep fxRegRetry "Q" = none) ∧
    (∃ m, m ∈ ["A", "Q"] ∧ lookupStep fxRegRetry m = none ∧
      executeSteps fxEnv fxRegRetry 10 "e1" (some ["A", "Q"]) false ⟨[], []⟩ =
        (⟨[], []⟩, .error ("Unknown pipeline step: " ++ m))) :=
  ⟨⟨rfl, by decide, rfl⟩,
    c7_unknown_step_aborts_run fxEnv fxRegRetry 10 "e1" ["A", "Q"] false
      ⟨[], []⟩ fxEmail "Q" rfl (by decide) rfl⟩

/-- C9: if a step's action succeeds but the subsequent "ok" log insert
throws, control falls into the catch block: the step ends up in both the
completed and the failed set, its result-map entry is overwritten with a
failure carrying the insert error, and — when the step is retryable — that
insert error is re-raised out of `executeStep`. -/
theorem c9_ok_log_failure_path (env : Env) (r : Registry) (stepName : String)
    (step : PipelineStep) (ctx : PipelineContext) (db : DB) (e : String)
    (hstep : lookupStep r stepName = some step)
    (hexec : step.execute ctx.email = .ok ())
    (hok : env.logInsert ctx.emailId stepName "ok" none = .error e)
    (herr : env.logInsert ctx.emailId stepName "error" (some e) = .ok ()) :
    stepName ∈ (executeStep env r ctx db stepName).1.1.completedSteps ∧
    stepName ∈ (executeStep env r ctx db stepName).1.1.failedSteps ∧
    assocGet (executeStep env r ctx db stepName).1.1.stepResults stepName =
      some ⟨false, some e⟩ ∧
    (step.retryable = true → (executeStep env r ctx db stepName).2 = some e) := by
  simp only [executeStep, hstep, hexec, hok, executeStepFailure, herr]
  by_cases hr : step.retryable <;>
    simp [hr, mem_setAdd_self, mem_setAdd_of_mem, assocGet_assocSet_self]

/-- C9 witness: retryable step "A" succeeds, the "ok" insert throws. -/
theorem c9_ok_log_failure_witness :
    (lookupStep fxRegBadLog "A" = some fxAretry ∧
      fxAretry.execute fxCtx0.email = .ok () ∧
      fxEnvBadLog.logInsert fxCtx0.emailId "A" "ok" none =
        .error "log insert failed" ∧
      fxEnvBadLog.logInsert fxCtx0.emailId "A" "error" (some "log insert failed") =
        .ok ()) ∧
    ("A" ∈ (executeStep fxEnvBadLog fxRegBadLog fxCtx0 ⟨[], []⟩ "A").1.1.completedSteps ∧
     "A" ∈ (executeStep fxEnvBadLog fxRegBadLog fxCtx0 ⟨[], []⟩ "A").1.1.failedSteps ∧
     assocGet (executeStep fxEnvBadLog fxRegBadLog fxCtx0 ⟨[], []⟩ "A").1.1.stepResults "A" =
       some ⟨false, some "log insert failed"⟩ ∧
     (fxAretry.retryable = true →
       (executeStep fxEnvBadLog fxRegBadLog fxCtx0 ⟨[], []⟩ "A").2 =
         some "log insert failed")) :=
  ⟨⟨rfl, rfl, rfl, rfl⟩,
    c9_ok_log_failure_path fxEnvBadLog fxRegBadLog "A" fxAretry fxCtx0 ⟨[], []⟩
      "log insert failed" rfl rfl rfl rfl⟩

/-- C3: planning any registered, rank-certified-acyclic step set (submitted
with `skipDependencies = true`, so the resolved set is exactly the requested
set) succeeds; the produced levels contain every resolved step exactly once
(their concatenation is duplicate-free and covers exactly the resolved set);
every in-set dependency of a step sits in a strictly earlier level; and the
concatenation of the levels is a valid topological order of the resolved
set. -/
theorem c3_plan_valid_topological_levels (r : Registry) (fuel : Nat)
    (requested : List String) (rank : String → Nat)
    (hreg : ∀ n ∈ requested, (lookupStep r n).isSome = true)
    (hrank : RankedAcyclic r requested rank)
    (hfuel : ∀ n ∈ requested, rank n < fuel) :
    ∃ plan : ExecutionPlan,
      createExecutionPlan r fuel requested true = .ok plan ∧
      (∀ n, n ∈ plan.parallelGroups.flatten ↔ n ∈ requested) ∧
      plan.parallelGroups.flatten.Nodup ∧
      (∀ i j gi gj s, plan.parallelGroups.get? i = some gi →
        plan.parallelGroups.get? j = some gj →
        s ∈ gi → ∀ d ∈ depsOf r s, d ∈ requested → d ∈ gj → j < i) ∧
      IsTopoOrder r requested plan.parallelGroups.flatten := by
  by_cases hreqnil : requested = []
  · subst hreqnil
    refine ⟨⟨[], [], 0⟩, rfl, by simp, by simp, ?_, ?_⟩
    · intro i j gi gj s hgi
      rw [List.get?_eq_none.mpr (by simp)] at hgi
      cases hgi
    · intro p s q hpq
      simp at hpq
  · have hmemN : ∀ x, x ∈ dedupFirst requested ↔ x ∈ requested :=
      mem_dedupFirst requested
    have hrankN : RankedAcyclic r (dedupFirst requested) rank := by
      intro n hn d hd hdn
      exact hrank n ((hmemN n).mp hn) d hd ((hmemN d).mp hdn)
    have hfuelN : ∀ n ∈ dedupFirst requested, rank n < fuel := fun n hn =>
      hfuel n ((hmemN n).mp hn)
    obtain ⟨sorted, hsort, hsmem, hsnd, hstopo⟩ :=
      topologicalSort_facts r (dedupFirst requested) rank fuel hrankN hfuelN
    have hregS : ∀ n ∈ sorted, (lookupStep r n).isSome = true := fun n hn =>
      hreg n ((hmemN n).mp ((hsmem n).mp hn))
    obtain ⟨groups, hcpg, hjm, hjn, hord, htac⟩ :=
      createParallelGroups_facts r (dedupFirst requested) sorted hregS hsnd
        hsmem hstopo
    refine ⟨⟨sorted, groups, sorted.length⟩, ?_, ?_, hjn, ?_, ?_⟩
    · simp only [createExecutionPlan, validateSteps_ok r requested hreg,
        if_neg hreqnil, if_true]
      simp only [hsort, hcpg]
    · intro n
      rw [hjm n]
      exact hmemN n
    · intro i j gi gj st hgi hgj hst d hd hdn hdj
      exact hord i j gi gj st hgi hgj hst d hd ((hmemN d).mpr hdn) hdj
    · intro p st q hpq d hd hdn
      exact topoAcc_isTopoOrder r (dedupFirst requested)
        groups.flatten htac p st q hpq d hd ((hmemN d).mpr hdn)

/-- rank certificate for the X-depends-on-Y-depends-on-Z registry -/
def fxRankXYZ : String → Nat := fun n =>
  if n = "X" then 2 else if n = "Y" then 1 else 0

/-- C3 witness: the X-depends-on-Y-depends-on-Z registry, all three steps
requested. -/
theorem c3_plan_witness :
    ((∀ n ∈ ["X", "Y", "Z"], (lookupStep fxRegXYZ n).isSome = true) ∧
      RankedAcyclic fxRegXYZ ["X", "Y", "Z"] fxRankXYZ ∧
      (∀ n ∈ ["X", "Y", "Z"], fxRankXYZ n < 10)) ∧
    (∃ plan : ExecutionPlan,
      createExecutionPlan fxRegXYZ 10 ["X", "Y", "Z"] true = .ok plan ∧
      (∀ n, n ∈ plan.parallelGroups.flatten ↔ n ∈ ["X", "Y", "Z"]) ∧
      plan.parallelGroups.flatten.Nodup ∧
      (∀ i j gi gj s, plan.parallelGroups.get? i = some gi →
        plan.parallelGroups.get? j = some gj →
        s ∈ gi → ∀ d ∈ depsOf fxRegXYZ s, d ∈ ["X", "Y", "Z"] → d ∈ gj → j < i) ∧
      IsTopoOrder fxRegXYZ ["X", "Y", "Z"] plan.parallelGroups.flatten) := by
  constructor
  · refine ⟨by decide, by unfold RankedAcyclic; decide, by decide⟩
  · exact c3_plan_valid_topological_levels fxRegXYZ 10 ["X", "Y", "Z"] fxRankXYZ
      (by decide) (by unfold RankedAcyclic; decide) (by decide)


/-! ## Registry congruence: planning without dependencies never consults them -/

theorem exceptFold_congr {α : Type} (f g : α → String → Except String α)
    (xs : List String) (h : ∀ a x, x ∈ xs → f a x = g a x) :
    ∀ a, exceptFold f xs a = exceptFold g xs a := by
  induction xs with
  | nil => intro a; rfl
  | cons x rest ih =>
      intro a
      rw [exceptFold_cons, exceptFold_cons, h a x (List.mem_cons_self x rest)]
      cases g a x with
      | error e => rfl
      | ok a2 => exact ih (fun b y hy => h b y (List.mem_cons_of_mem x hy)) a2

theorem depsOf_congr (r r2 : Registry) (n : String)
    (h : lookupStep r2 n = lookupStep r n) : depsOf r2 n = depsOf r n := by
  unfold depsOf
  rw [h]

theorem visit_congr (r r2 : Registry) (names : List String)
    (hag : ∀ m ∈ names, lookupStep r2 m = lookupStep r m) :
    ∀ fuel visiting n st, n ∈ names →
      visit r2 names fuel visiting n st = visit r names fuel visiting n st := by
  intro fuel
  induction fuel with
  | zero =>
      intro visiting n st _
      rw [visit_zero, visit_zero]
  | succ f ih =>
      intro visiting n st hn
      rw [visit_succ, visit_succ, depsOf_congr r r2 n (hag n hn)]
      rw [exceptFold_congr
        (fun st2 dep =>
          if dep ∈ names then visit r2 names f (n :: visiting) dep st2
          else .ok st2)
        (fun st2 dep =>
          if dep ∈ names then visit r names f (n :: visiting) dep st2
          else .ok st2)
        (depsOf r n)
        (fun a x _ => by
          by_cases hx : x ∈ names
          · simp only [hx, if_true]
            exact ih (n :: visiting) x a hx
          · simp only [hx, if_false])
        st]

theorem topologicalSort_congr (r r2 : Registry) (fuel : Nat)
    (names : List String)
    (hag : ∀ m ∈ names, lookupStep r2 m = lookupStep r m) :
    topologicalSort r2 fuel names = topologicalSort r fuel names := by
  unfold topologicalSort
  have : ∀ ms st, (∀ m ∈ ms, m ∈ names) →
      exceptFold (fun st n => visit r2 names fuel [] n st) ms st =
      exceptFold (fun st n => visit r names fuel [] n st) ms st := by
    intro ms
    induction ms with
    | nil => intro st _; rfl
    | cons m ms ih =>
        intro st hms
        rw [exceptFold_cons, exceptFold_cons,
          visit_congr r r2 names hag fuel [] m st (hms m (List.mem_cons_self m ms))]
        cases visit r names fuel [] m st with
        | error e => rfl
        | ok st2 => exact ih st2 (fun y hy => hms y (List.mem_cons_of_mem m hy))
  exact this names [] (fun m hm => hm)

theorem topologicalSort_subset (r : Registry) (fuel : Nat)
    (names sorted : List String)
    (h : topologicalSort r fuel names = .ok sorted) : ∀ x ∈ sorted, x ∈ names := by
  have main : ∀ (ms st0 out : List String), (∀ m ∈ ms, m ∈ names) →
      (∀ x ∈ st0, x ∈ names) →
      exceptFold (fun st n => visit r names fuel [] n st) ms st0 = .ok out →
      ∀ x ∈ out, x ∈ names := by
    intro ms
    induction ms with
    | nil =>
        intro st0 out _ h0 hf
        rw [exceptFold_nil] at hf
        injection hf with hf
        subst hf
        exact h0
    | cons m ms ih =>
        intro st0 out hms h0 hf
        rw [exceptFold_cons] at hf
        cases hv : visit r names fuel [] m st0 with
        | error e => rw [hv] at hf; cases hf
        | ok st1 =>
            rw [hv] at hf
            obtain ⟨⟨ext, hext, hmem⟩, -, -, -⟩ :=
              visit_post r names fuel [] m st0 st1
                (hms m (List.mem_cons_self m ms)) hv
            refine ih st1 out (fun y hy => hms y (List.mem_cons_of_mem m hy))
              ?_ hf
            intro x hx
            rw [hext] at hx
            rcases List.mem_append.mp hx with h2 | h2
            · exact h0 x h2
            · exact (hmem x h2).1
  exact main names [] sorted (fun m hm => hm) (by simp) h

theorem buildLevels_congr (r r2 : Registry) :
    ∀ (todo : List String) (acc : List (String × Int)),
      (∀ n ∈ todo, lookupStep r2 n = lookupStep r n) →
      buildLevels r2 todo acc = buildLevels r todo acc := by
  intro todo
  induction todo with
  | nil => intro acc _; rfl
  | cons n ns ih =>
      intro acc hag
      rw [buildLevels_cons, buildLevels_cons, hag n (List.mem_cons_self n ns)]
      cases lookupStep r n with
      | none => rfl
      | some step => exact ih _ (fun m hm => hag m (List.mem_cons_of_mem n hm))

theorem validateSteps_congr (r r2 : Registry) :
    ∀ (req : List String), (∀ n ∈ req, lookupStep r2 n = lookupStep r n) →
      validateSteps r2 req = validateSteps r req := by
  intro req
  induction req with
  | nil => intro _; rfl
  | cons n ns ih =>
      intro hag
      unfold validateSteps
      rw [hag n (List.mem_cons_self n ns),
        ih (fun m hm => hag m (List.mem_cons_of_mem n hm))]

theorem validateSteps_ok_inv (r : Registry) :
    ∀ (req out : List String), validateSteps r req = .ok out → out = req := by
  intro req
  induction req with
  | nil =>
      intro out h
      injection h with h
      exact h.symm
  | cons n ns ih =>
      intro out h
      unfold validateSteps at h
      by_cases hn : (lookupStep r n).isSome
      · rw [if_pos hn] at h
        cases hv : validateSteps r ns with
        | error e => rw [hv] at h; cases h
        | ok rest =>
            rw [hv] at h
            injection h with h
            rw [← h, ih rest hv]
      · rw [if_neg hn] at h
        cases h

theorem createExecutionPlan_congr_skip (r r2 : Registry) (fuel : Nat)
    (requested : List String)
    (hag : ∀ n ∈ requested, lookupStep r2 n = lookupStep r n) :
    createExecutionPlan r2 fuel requested true =
      createExecutionPlan r fuel requested true := by
  unfold createExecutionPlan
  rw [validateSteps_congr r r2 requested hag]
  cases hval : validateSteps r requested with
  | error e => rfl
  | ok stepsToRun =>
      have hsub : ∀ n ∈ stepsToRun, n ∈ requested := by
        rw [validateSteps_ok_inv r requested stepsToRun hval]
        exact fun n hn => hn
      by_cases hnil : stepsToRun = []
      · simp [hnil]
      · simp only [if_neg hnil, if_true]
        have hagN : ∀ m ∈ dedupFirst stepsToRun,
            lookupStep r2 m = lookupStep r m := fun m hm =>
          hag m (hsub m ((mem_dedupFirst stepsToRun m).mp hm))
        rw [topologicalSort_congr r r2 fuel (dedupFirst stepsToRun) hagN]
        cases hsort : topologicalSort r fuel (dedupFirst stepsToRun) with
        | error e => rfl
        | ok sorted =>
            have hsortsub := topologicalSort_subset r fuel
              (dedupFirst stepsToRun) sorted hsort
            have hbl := buildLevels_congr r r2 sorted []
              (fun n hn => hagN n (hsortsub n hn))
            simp [createParallelGroups, hbl]

/-- C6: with `skipDependencies = true` (the spec's `includeDependencies =
false`), the resolved set is exactly the requested names: the plan's step
list holds exactly the requested names, and the whole plan is invariant
under any change to the registry outside the requested names — so a
dependency pointing outside the requested set is never looked up, planning
succeeds without an unknown-step error even if that dependency is entirely
unregistered, and the dependency plays no role in ordering or level
assignment.  (Hypotheses: the requested names themselves are registered and
their in-set dependency graph is acyclic, certified by `rank`.) -/
theorem c6_skip_dependencies_exact_set (r : Registry) (fuel : Nat)
    (requested : List String) (rank : String → Nat)
    (hreg : ∀ n ∈ requested, (lookupStep r n).isSome = true)
    (hrank : RankedAcyclic r requested rank)
    (hfuel : ∀ n ∈ requested, rank n < fuel) :
    ∃ plan : ExecutionPlan,
      createExecutionPlan r fuel requested true = .ok plan ∧
      (∀ n, n ∈ plan.steps ↔ n ∈ requested) ∧
      (∀ r2 : Registry, (∀ n ∈ requested, lookupStep r2 n = lookupStep r n) →
        createExecutionPlan r2 fuel requested true = .ok plan) := by
  by_cases hreqnil : requested = []
  · subst hreqnil
    exact ⟨⟨[], [], 0⟩, rfl, by simp, fun r2 _ => rfl⟩
  · have hmemN : ∀ x, x ∈ dedupFirst requested ↔ x ∈ requested :=
      mem_dedupFirst requested
    have hrankN : RankedAcyclic r (dedupFirst requested) rank := by
      intro n hn d hd hdn
      exact hrank n ((hmemN n).mp hn) d hd ((hmemN d).mp hdn)
    have hfuelN : ∀ n ∈ dedupFirst requested, rank n < fuel := fun n hn =>
      hfuel n ((hmemN n).mp hn)
    obtain ⟨sorted, hsort, hsmem, hsnd, hstopo⟩ :=
      topologicalSort_facts r (dedupFirst requested) rank fuel hrankN hfuelN
    have hregS : ∀ n ∈ sorted, (lookupStep r n).isSome = true := fun n hn =>
      hreg n ((hmemN n).mp ((hsmem n).mp hn))
    obtain ⟨groups, hcpg, -, -, -, -⟩ :=
      createParallelGroups_facts r (dedupFirst requested) sorted hregS hsnd
        hsmem hstopo
    have hplan : createExecutionPlan r fuel requested true =
        .ok ⟨sorted, groups, sorted.length⟩ := by
      simp only [createExecutionPlan, validateSteps_ok r requested hreg,
        if_neg hreqnil, if_true]
      simp only [hsort, hcpg]
    refine ⟨⟨sorted, groups, sorted.length⟩, hplan, ?_, ?_⟩
    · intro n
      show n ∈ sorted ↔ n ∈ requested
      rw [hsmem n]
      exact hmemN n
    · intro r2 hag
      rw [createExecutionPlan_congr_skip r r2 fuel requested hag]
      exact hplan

/-- C6 witness: only X is registered; X declares a dependency on the
entirely unregistered name "Y"; planning `["X"]` without dependencies. -/
theorem c6_skip_dependencies_witness :
    ((∀ n ∈ ["X"], (lookupStep [("X", fxX)] n).isSome = true) ∧
      RankedAcyclic [("X", fxX)] ["X"] (fun _ => 0) ∧
      (∀ n ∈ ["X"], (fun (_ : String) => 0) n < 10)) ∧
    (∃ plan : ExecutionPlan,
      createExecutionPlan [("X", fxX)] 10 ["X"] true = .ok plan ∧
      (∀ n, n ∈ plan.steps ↔ n ∈ ["X"]) ∧
      (∀ r2 : Registry, (∀ n ∈ ["X"], lookupStep r2 n = lookupStep [("X", fxX)] n) →
        createExecutionPlan r2 10 ["X"] true = .ok plan)) := by
  constructor
  · refine ⟨by decide, by unfold RankedAcyclic; decide, by decide⟩
  · exact c6_skip_dependencies_exact_set [("X", fxX)] 10 ["X"] (fun _ => 0)
      (by decide) (by unfold RankedAcyclic; decide) (by decide)


/-! ## Executor lemmas for the run-level claims -/

theorem executeStepFailure_core (env : Env) (step : PipelineStep)
    (ctx : PipelineContext) (db : DB) (n msg : String) :
    (executeStepFailure env step ctx db n msg).1.1.emailId = ctx.emailId ∧
    (executeStepFailure env step ctx db n msg).1.1.email = ctx.email ∧
    (executeStepFailure env step ctx db n msg).1.1.completedSteps =
      ctx.completedSteps ∧
    (executeStepFailure env step ctx db n msg).1.1.failedSteps =
      setAdd ctx.failedSteps n := by
  unfold executeStepFailure
  cases env.logInsert ctx.emailId n "error" (some msg) with
  | error e2 => exact ⟨rfl, rfl, rfl, rfl⟩
  | ok u =>
      cases u
      cases step.retryable
      · exact ⟨rfl, rfl, rfl, rfl⟩
      · exact ⟨rfl, rfl, rfl, rfl⟩

theorem executeStep_core (env : Env) (r : Registry) (ctx : PipelineContext)
    (db : DB) (n : String) :
    (executeStep env r ctx db n).1.1.emailId = ctx.emailId ∧
    (executeStep env r ctx db n).1.1.email = ctx.email ∧
    (∀ x ∈ ctx.completedSteps, x ∈ (executeStep env r ctx db n).1.1.completedSteps) ∧
    (∀ x ∈ ctx.failedSteps, x ∈ (executeStep env r ctx db n).1.1.failedSteps) ∧
    (∀ step, lookupStep r n = some step →
      (∀ e, step.execute ctx.email = .error e →
        n ∈ (executeStep env r ctx db n).1.1.failedSteps) ∧
      (n ∈ (executeStep env r ctx db n).1.1.completedSteps ∨
        n ∈ (executeStep env r ctx db n).1.1.failedSteps)) := by
  cases hl : lookupStep r n with
  | none =>
      simp only [executeStep, hl]
      exact ⟨trivial, trivial, fun x hx => hx, fun x hx => hx,
        fun step hstep => nomatch hstep⟩
  | some step =>
      cases he : step.execute ctx.email with
      | ok u =>
          cases u
          cases hi : env.logInsert ctx.emailId n "ok" none with
          | ok v =>
              cases v
              simp only [executeStep, hl, he, hi]
              refine ⟨trivial, trivial, fun x hx => mem_setAdd_of_mem _ _ x hx,
                fun x hx => hx, ?_⟩
              intro step2 hstep2
              injection hstep2 with hstep2
              subst hstep2
              refine ⟨?_, Or.inl (mem_setAdd_self _ _)⟩
              intro e hee
              rw [he] at hee
              cases hee
          | error e =>
              simp only [executeStep, hl, he, hi]
              obtain ⟨q1, q2, q3, q4⟩ := executeStepFailure_core env step
                { ctx with
                  stepResults := assocSet ctx.stepResults n ⟨true, none⟩
                  completedSteps := setAdd ctx.completedSteps n } db n e
              refine ⟨q1, q2, ?_, ?_, ?_⟩
              · intro x hx
                rw [q3]
                exact mem_setAdd_of_mem _ _ x hx
              · intro x hx
                rw [q4]
                exact mem_setAdd_of_mem _ _ x hx
              · intro step2 _
                refine ⟨?_, Or.inl ?_⟩
                · intro e2 _
                  rw [q4]
                  exact mem_setAdd_self _ _
                · rw [q3]
                  exact mem_setAdd_self _ _
      | error e =>
          simp only [executeStep, hl, he]
          obtain ⟨q1, q2, q3, q4⟩ := executeStepFailure_core env step ctx db n e
          refine ⟨q1, q2, ?_, ?_, ?_⟩
          · intro x hx
            rw [q3]
            exact hx
          · intro x hx
            rw [q4]
            exact mem_setAdd_of_mem _ _ x hx
          · intro step2 _
            refine ⟨?_, Or.inr ?_⟩
            · intro e2 _
              rw [q4]
              exact mem_setAdd_self _ _
            · rw [q4]
              exact mem_setAdd_self _ _


theorem runGroup_core (env : Env) (r : Registry) :
    ∀ (group : List String) (st : PipelineContext × DB),
      (runGroup env r group st).1.emailId = st.1.emailId ∧
      (runGroup env r group st).1.email = st.1.email ∧
      (∀ x ∈ st.1.completedSteps, x ∈ (runGroup env r group st).1.completedSteps) ∧
      (∀ x ∈ st.1.failedSteps, x ∈ (runGroup env r group st).1.failedSteps) := by
  intro group
  induction group with
  | nil => intro st; exact ⟨rfl, rfl, fun x hx => hx, fun x hx => hx⟩
  | cons n ns ih =>
      intro st
      have hrg : runGroup env r (n :: ns) st =
          runGroup env r ns (executeStep env r st.1 st.2 n).1 := rfl
      rw [hrg]
      obtain ⟨e1, e2, e3, e4, -⟩ := executeStep_core env r st.1 st.2 n
      obtain ⟨i1, i2, i3, i4⟩ := ih (executeStep env r st.1 st.2 n).1
      exact ⟨by rw [i1, e1], by rw [i2, e2], fun x hx => i3 x (e3 x hx),
        fun x hx => i4 x (e4 x hx)⟩

theorem runGroup_attempted (env : Env) (r : Registry) :
    ∀ (group : List String) (st : PipelineContext × DB) (t : String),
      t ∈ group → (lookupStep r t).isSome = true →
      t ∈ (runGroup env r group st).1.completedSteps ∨
      t ∈ (runGroup env r group st).1.failedSteps := by
  intro group
  induction group with
  | nil => intro st t ht; cases ht
  | cons n ns ih =>
      intro st t ht hreg
      have hrg : runGroup env r (n :: ns) st =
          runGroup env r ns (executeStep env r st.1 st.2 n).1 := rfl
      rw [hrg]
      rcases List.mem_cons.mp ht with rfl | ht2
      · obtain ⟨step, hstep⟩ := Option.isSome_iff_exists.mp hreg
        obtain ⟨-, -, e3, e4, e5⟩ := executeStep_core env r st.1 st.2 t
        obtain ⟨-, hor⟩ := e5 step hstep
        obtain ⟨-, -, i3, i4⟩ := runGroup_core env r ns
          (executeStep env r st.1 st.2 t).1
        rcases hor with h | h
        · exact Or.inl (i3 t h)
        · exact Or.inr (i4 t h)
      · exact ih (executeStep env r st.1 st.2 n).1 t ht2 hreg

theorem runGroup_failure (env : Env) (r : Registry) :
    ∀ (group : List String) (st : PipelineContext × DB) (s : String)
      (step : PipelineStep) (e : String),
      s ∈ group → lookupStep r s = some step →
      step.execute st.1.email = .error e →
      s ∈ (runGroup env r group st).1.failedSteps := by
  intro group
  induction group with
  | nil => intro st s step e hs; cases hs
  | cons n ns ih =>
      intro st s step e hs hstep hfail
      have hrg : runGroup env r (n :: ns) st =
          runGroup env r ns (executeStep env r st.1 st.2 n).1 := rfl
      rw [hrg]
      rcases List.mem_cons.mp hs with rfl | hs2
      · obtain ⟨-, -, -, -, e5⟩ := executeStep_core env r st.1 st.2 s
        obtain ⟨hfailmem, -⟩ := e5 step hstep
        obtain ⟨-, -, -, i4⟩ := runGroup_core env r ns
          (executeStep env r st.1 st.2 s).1
        exact i4 s (hfailmem e hfail)
      · obtain ⟨-, e2, -, -⟩ := executeStep_core env r st.1 st.2 n
        refine ih (executeStep env r st.1 st.2 n).1 s step e hs2 hstep ?_
        rw [e2]
        exact hfail

theorem executePlanAux_nil (env : Env) (r : Registry) (emailId : String)
    (st : PipelineContext × DB) : executePlanAux env r emailId [] st = st := rfl

theorem executePlanAux_cons (env : Env) (r : Registry) (emailId : String)
    (g : List String) (rest : List (List String)) (st : PipelineContext × DB) :
    executePlanAux env r emailId (g :: rest) st =
      executePlanAux env r emailId rest
        (match rest with
         | [] => runGroup env r g st
         | next :: _ =>
             if next.length > 0 then
               ((runGroup env r g st).1,
                 updateProcessingStatus (runGroup env r g st).2 emailId
                   "processing" next.head?)
             else runGroup env r g st) := rfl

theorem executePlanAux_mid_ctx (env : Env) (r : Registry) (emailId : String)
    (g : List String) (rest : List (List String)) (st : PipelineContext × DB) :
    (match rest with
     | [] => runGroup env r g st
     | next :: _ =>
         if next.length > 0 then
           ((runGroup env r g st).1,
             updateProcessingStatus (runGroup env r g st).2 emailId
               "processing" next.head?)
         else runGroup env r g st : PipelineContext × DB).1 =
      (runGroup env r g st).1 := by
  cases rest with
  | nil => rfl
  | cons next rest2 =>
      by_cases h : next.length > 0
      · simp [h]
      · simp [h]

theorem executePlanAux_core (env : Env) (r : Registry) (emailId : String) :
    ∀ (groups : List (List String)) (st : PipelineContext × DB),
      (executePlanAux env r emailId groups st).1.emailId = st.1.emailId ∧
      (executePlanAux env r emailId groups st).1.email = st.1.email ∧
      (∀ x ∈ st.1.completedSteps,
        x ∈ (executePlanAux env r emailId groups st).1.completedSteps) ∧
      (∀ x ∈ st.1.failedSteps,
        x ∈ (executePlanAux env r emailId groups st).1.failedSteps) := by
  intro groups
  induction groups with
  | nil => intro st; exact ⟨rfl, rfl, fun x hx => hx, fun x hx => hx⟩
  | cons g rest ih =>
      intro st
      rw [executePlanAux_cons]
      obtain ⟨i1, i2, i3, i4⟩ := ih _
      obtain ⟨r1, r2, r3, r4⟩ := runGroup_core env r g st
      rw [executePlanAux_mid_ctx] at i1 i2
      refine ⟨by rw [i1, r1], by rw [i2, r2], ?_, ?_⟩
      · intro x hx
        have := i3 x
        rw [executePlanAux_mid_ctx] at this
        exact this (r3 x hx)
      · intro x hx
        have := i4 x
        rw [executePlanAux_mid_ctx] at this
        exact this (r4 x hx)

theorem executePlanAux_failure (env : Env) (r : Registry) (emailId : String) :
    ∀ (groups : List (List String)) (st : PipelineContext × DB) (i : Nat)
      (g : List String) (s : String) (step : PipelineStep) (e : String),
      groups.get? i = some g → s ∈ g → lookupStep r s = some step →
      step.execute st.1.email = .error e →
      s ∈ (executePlanAux env r emailId groups st).1.failedSteps := by
  intro groups
  induction groups with
  | nil =>
      intro st i g s step e hg
      rw [List.get?_eq_none.mpr (by simp)] at hg
      cases hg
  | cons g0 rest ih =>
      intro st i g s step e hg hs hstep hfail
      rw [executePlanAux_cons]
      cases i with
      | zero =>
          injection hg with hg
          subst hg
          have hfailed : s ∈ (runGroup env r g0 st).1.failedSteps :=
            runGroup_failure env r g0 st s step e hs hstep hfail
          obtain ⟨-, -, -, i4⟩ := executePlanAux_core env r emailId rest _
          apply i4
          rw [executePlanAux_mid_ctx]
          exact hfailed
      | succ i2 =>
          have hg2 : rest.get? i2 = some g := hg
          refine ih _ i2 g s step e hg2 hs hstep ?_
          rw [executePlanAux_mid_ctx]
          obtain ⟨-, r2, -, -⟩ := runGroup_core env r g0 st
          rw [r2]
          exact hfail

theorem executePlanAux_attempted (env : Env) (r : Registry) (emailId : String) :
    ∀ (groups : List (List String)) (st : PipelineContext × DB)
      (g : List String) (t : String),
      g ∈ groups → t ∈ g → (lookupStep r t).isSome = true →
      t ∈ (executePlanAux env r emailId groups st).1.completedSteps ∨
      t ∈ (executePlanAux env r emailId groups st).1.failedSteps := by
  intro groups
  induction groups with
  | nil => intro st g t hg; cases hg
  | cons g0 rest ih =>
      intro st g t hg ht hreg
      rw [executePlanAux_cons]
      rcases List.mem_cons.mp hg with rfl | hg2
      · have := runGroup_attempted env r g st t ht hreg
        obtain ⟨-, -, i3, i4⟩ := executePlanAux_core env r emailId rest _
        rcases this with h | h
        · refine Or.inl (i3 t ?_)
          rw [executePlanAux_mid_ctx]
          exact h
        · refine Or.inr (i4 t ?_)
          rw [executePlanAux_mid_ctx]
          exact h
      · exact ih _ g t hg2 ht hreg


/-! ## Every step named in a successful plan is registered -/

theorem mem_assocSet {κ α : Type} [DecidableEq κ] :
    ∀ (l : List (κ × α)) (k : κ) (v : α) (p : κ × α),
      p ∈ assocSet l k v → p ∈ l ∨ p = (k, v) := by
  intro l
  induction l with
  | nil =>
      intro k v p hp
      simp only [assocSet, List.mem_singleton] at hp
      exact Or.inr hp
  | cons q rest ih =>
      intro k v p hp
      by_cases hq : q.1 = k
      · rw [assocSet, if_pos hq] at hp
        rcases List.mem_cons.mp hp with h | h
        · rw [h, hq]
          exact Or.inr rfl
        · exact Or.inl (List.mem_cons_of_mem q h)
      · rw [assocSet, if_neg hq] at hp
        rcases List.mem_cons.mp hp with h | h
        · rw [h]
          exact Or.inl (List.mem_cons_self q rest)
        · rcases ih k v p h with h2 | h2
          · exact Or.inl (List.mem_cons_of_mem q h2)
          · exact Or.inr h2

theorem buildLevels_entries (r : Registry) :
    ∀ (todo : List String) (acc lv : List (String × Int)),
      buildLevels r todo acc = .ok lv →
      ∀ p ∈ lv, p ∈ acc ∨ (lookupStep r (Prod.fst p)).isSome = true := by
  intro todo
  induction todo with
  | nil =>
      intro acc lv h p hp
      rw [buildLevels_nil] at h
      injection h with h
      subst h
      exact Or.inl hp
  | cons n ns ih =>
      intro acc lv h p hp
      rw [buildLevels_cons] at h
      cases hl : lookupStep r n with
      | none => rw [hl] at h; cases h
      | some step =>
          rw [hl] at h
          rcases ih _ lv h p hp with h2 | h2
          · rcases mem_assocSet acc n _ p h2 with h3 | h3
            · exact Or.inl h3
            · refine Or.inr ?_
              rw [h3]
              show (lookupStep r n).isSome = true
              rw [hl]
              rfl
          · exact Or.inr h2

theorem groupByLevel_members (P0 : String → Prop) :
    ∀ (entries : List (String × Int)) (acc : List (Int × List String)),
      (∀ q ∈ acc, ∀ m ∈ Prod.snd q, P0 m) →
      (∀ p ∈ entries, P0 (Prod.fst p)) →
      ∀ q ∈ entries.foldl gblStep acc, ∀ m ∈ Prod.snd q, P0 m := by
  intro entries
  induction entries with
  | nil => intro acc hacc _; exact hacc
  | cons p ps ih =>
      intro acc hacc hents
      rw [List.foldl_cons]
      refine ih (gblStep acc p) ?_ (fun x hx => hents x (List.mem_cons_of_mem p hx))
      intro q hq m hm
      unfold gblStep at hq
      cases hget : assocGet acc p.2 with
      | some g =>
          rw [hget] at hq
          rcases mem_assocSet acc p.2 (g ++ [p.1]) q hq with h2 | h2
          · exact hacc q h2 m hm
          · rw [h2] at hm
            rcases List.mem_append.mp hm with h3 | h3
            · exact hacc (p.2, g) (assocGet_mem acc p.2 g hget) m h3
            · rw [List.mem_singleton.mp h3]
              exact hents p (List.mem_cons_self p ps)
      | none =>
          rw [hget] at hq
          rcases List.mem_append.mp hq with h2 | h2
          · exact hacc q h2 m hm
          · rw [List.mem_singleton.mp h2] at hm
            rw [List.mem_singleton.mp hm]
            exact hents p (List.mem_cons_self p ps)

theorem mem_collectGroups (lg : List (Int × List String)) (g : List String)
    (h : g ∈ collectGroups lg) : ∃ i : Nat, assocGet lg (Int.ofNat i) = some g := by
  unfold collectGroups at h
  obtain ⟨i, -, hg⟩ := List.mem_filterMap.mp h
  exact ⟨i, hg⟩

theorem createParallelGroups_registered (r : Registry) (sorted : List String)
    (groups : List (List String))
    (h : createParallelGroups r sorted = .ok groups) :
    ∀ g ∈ groups, ∀ t ∈ g, (lookupStep r t).isSome = true := by
  unfold createParallelGroups at h
  cases hbl : buildLevels r sorted [] with
  | error e => rw [hbl] at h; cases h
  | ok lv =>
      rw [hbl] at h
      injection h with h
      subst h
      intro g hg t ht
      obtain ⟨i, hgi⟩ := mem_collectGroups (groupByLevel lv) g hg
      have hqmem : (Int.ofNat i, g) ∈ groupByLevel lv :=
        assocGet_mem (groupByLevel lv) (Int.ofNat i) g hgi
      have hP0 : ∀ p ∈ lv, (lookupStep r (Prod.fst p)).isSome = true := by
        intro p hp
        rcases buildLevels_entries r sorted [] lv hbl p hp with h2 | h2
        · cases h2
        · exact h2
      exact groupByLevel_members (fun m => (lookupStep r m).isSome = true) lv []
        (fun q hq => nomatch hq) hP0 (Int.ofNat i, g) hqmem t ht

theorem createExecutionPlan_groups_registered (r : Registry) (fuel : Nat)
    (req : List String) (skip : Bool) (plan : ExecutionPlan)
    (h : createExecutionPlan r fuel req skip = .ok plan) :
    ∀ g ∈ plan.parallelGroups, ∀ t ∈ g, (lookupStep r t).isSome = true := by
  unfold createExecutionPlan at h
  cases hval : validateSteps r req with
  | error e => rw [hval] at h; cases h
  | ok stepsToRun =>
      simp only [hval] at h
      by_cases hnil : stepsToRun = []
      · rw [if_pos hnil] at h
        injection h with h
        subst h
        intro g hg
        cases hg
      · rw [if_neg hnil] at h
        cases hA : (if skip = true then Except.ok (dedupFirst stepsToRun)
            else exceptFold (fun acc n => addStepAndDeps r fuel n acc)
              stepsToRun []) with
        | error e => simp only [hA] at h; cases h
        | ok allReq =>
            simp only [hA] at h
            cases hsort : topologicalSort r fuel allReq with
            | error e => simp only [hsort] at h; cases h
            | ok sorted =>
                simp only [hsort] at h
                cases hcpg : createParallelGroups r sorted with
                | error e => simp only [hcpg] at h; cases h
                | ok groups =>
                    simp only [hcpg] at h
                    injection h with h
                    subst h
                    exact createParallelGroups_registered r sorted groups hcpg


/-- C4: a non-retryable step failure is absorbed locally: `executeSteps`
still returns the run context normally, the failing step's name is recorded
in the context's failed set, every level after the failing one still starts
(each of its steps is attempted, ending in the completed or the failed set),
and the final persisted processing status is `partial_failure`. -/
theorem c4_nonretryable_failure_absorbed (env : Env) (r : Registry)
    (fuel : Nat) (emailId : String) (requested : Option (List String))
    (skip : Bool) (db : DB) (em : Email) (plan : ExecutionPlan) (i : Nat)
    (g : List String) (s : String) (step : PipelineStep) (e : String)
    (hload : env.loadEmail emailId = some em)
    (hplan : createExecutionPlan r fuel (requested.getD (r.map Prod.fst)) skip =
      .ok plan)
    (hg : plan.parallelGroups.get? i = some g)
    (hs : s ∈ g)
    (hstep : lookupStep r s = some step)
    (hret : step.retryable = false)
    (hfail : step.execute em = .error e) :
    ∃ ctx db2,
      executeSteps env r fuel emailId requested skip db = (db2, .ok ctx) ∧
      s ∈ ctx.failedSteps ∧
      db2.statusWrites.getLast? = some ⟨emailId, "partial_failure", none⟩ ∧
      (∀ j g2, i < j → plan.parallelGroups.get? j = some g2 → ∀ t ∈ g2,
        t ∈ ctx.completedSteps ∨ t ∈ ctx.failedSteps) := by
  have hsfail : s ∈ (executePlanAux env r emailId plan.parallelGroups
      (⟨emailId, em, [], [], []⟩,
        updateProcessingStatus db emailId "processing" plan.steps.head?)).1.failedSteps :=
    executePlanAux_failure env r emailId plan.parallelGroups
      (⟨emailId, em, [], [], []⟩,
        updateProcessingStatus db emailId "processing" plan.steps.head?)
      i g s step e hg hs hstep hfail
  have hne : ¬ ((executePlanAux env r emailId plan.parallelGroups
      (⟨emailId, em, [], [], []⟩,
        updateProcessingStatus db emailId "processing" plan.steps.head?)).1.failedSteps = []) := by
    intro hc
    rw [hc] at hsfail
    cases hsfail
  refine ⟨(executePlanAux env r emailId plan.parallelGroups
      (⟨emailId, em, [], [], []⟩,
        updateProcessingStatus db emailId "processing" plan.steps.head?)).1,
    updateProcessingStatus (executePlanAux env r emailId plan.parallelGroups
      (⟨emailId, em, [], [], []⟩,
        updateProcessingStatus db emailId "processing" plan.steps.head?)).2
      emailId "partial_failure" none, ?_, hsfail, ?_, ?_⟩
  · simp only [executeSteps, hload, hplan]
    rw [if_neg hne]
  · unfold updateProcessingStatus
    simp [List.getLast?_concat]
  · intro j g2 _ hg2 t ht
    have hreg := createExecutionPlan_groups_registered r fuel
      (requested.getD (r.map Prod.fst)) skip plan hplan g2
      (List.get?_mem hg2) t ht
    exact executePlanAux_attempted env r emailId plan.parallelGroups _ g2 t
      (List.get?_mem hg2) ht hreg

/-- C4 witness: the A, B (non-retryable, throws), C chain. -/
theorem c4_nonretryable_witness :
    (fxEnv.loadEmail "e1" = some fxEmail ∧
      createExecutionPlan fxRegAbsorb 10
        ((none : Option (List String)).getD (fxRegAbsorb.map Prod.fst)) false =
        .ok ⟨["A", "B", "C"], [["A"], ["B"], ["C"]], 3⟩ ∧
      ([["A"], ["B"], ["C"]] : List (List String)).get? 1 = some ["B"] ∧
      "B" ∈ ["B"] ∧ lookupStep fxRegAbsorb "B" = some fxBabsorb ∧
      fxBabsorb.retryable = false ∧ fxBabsorb.execute fxEmail = .error "boom") ∧
    (∃ ctx db2,
      executeSteps fxEnv fxRegAbsorb 10 "e1" none false ⟨[], []⟩ =
        (db2, .ok ctx) ∧
      "B" ∈ ctx.failedSteps ∧
      db2.statusWrites.getLast? = some ⟨"e1", "partial_failure", none⟩ ∧
      (∀ j g2, 1 < j →
        (⟨["A", "B", "C"], [["A"], ["B"], ["C"]], 3⟩ : ExecutionPlan).parallelGroups.get? j =
          some g2 →
        ∀ t ∈ g2, t ∈ ctx.completedSteps ∨ t ∈ ctx.failedSteps)) := by
  constructor
  · exact ⟨rfl, by decide, by decide, by decide, rfl, rfl, rfl⟩
  · exact c4_nonretryable_failure_absorbed fxEnv fxRegAbsorb 10 "e1" none false
      ⟨[], []⟩ fxEmail ⟨["A", "B", "C"], [["A"], ["B"], ["C"]], 3⟩ 1 ["B"] "B"
      fxBabsorb "boom" rfl (by decide) (by decide) (by decide) rfl rfl rfl

end PensyPipeline
